import Mathlib

set_option maxHeartbeats 1000000

/-!
Verification of the govm version-lifecycle engine.

This file gives a shallow embedding, in Lean, of the core functions of the
govm Go-version manager (catalog parsing and ordering, installer download
verification and tar extraction, the metadata store, the shell-config
switcher and the uninstaller) and proves properties about them.

Strings are manipulated through explicit character-list recursion so that
every definition evaluates by kernel reduction on concrete inputs.
-/

/-- Characters accepted by Go's `unicode.IsSpace` within the ASCII range.
The inputs handled by the program (paths, version numbers, shell-config
lines, checksums) are ASCII, so this is the relevant fragment. -/
def goIsSpace (c : Char) : Bool :=
  c = ' ' || c = '\t' || c = '\n' || c = '\x0b' || c = '\x0c' || c = '\r'

/-- Go `strings.TrimSpace` (ASCII fragment): drop whitespace from both ends. -/
def goTrimSpace (s : String) : String :=
  ⟨((s.data.dropWhile goIsSpace).reverse.dropWhile goIsSpace).reverse⟩

/-- Helper for `goSplitChar`: accumulates the current field in reverse. -/
def splitCharAux (sep : Char) : List Char → List Char → List String
  | [], acc => [⟨acc.reverse⟩]
  | c :: rest, acc =>
    if c = sep then ⟨acc.reverse⟩ :: splitCharAux sep rest []
    else splitCharAux sep rest (c :: acc)

/-- Go `strings.Split(s, sep)` for a one-character separator (the program
only ever splits on `"\n"`, `"."` and `"/"`). `""` splits to `[""]`. -/
def goSplitChar (sep : Char) (s : String) : List String :=
  splitCharAux sep s.data []

/-- Go `strings.Join(parts, sep)` / the strings.Builder joins used by the
program. -/
def goJoin (sep : String) : List String → String
  | [] => ""
  | [x] => x
  | x :: y :: xs => x ++ sep ++ goJoin sep (y :: xs)

/-- Go `strings.HasPrefix`. -/
def goHasPrefix (s pre : String) : Bool :=
  pre.data.isPrefixOf s.data

/-- Go `strings.TrimPrefix`. -/
def goTrimPrefix (s pre : String) : String :=
  if goHasPrefix s pre then ⟨s.data.drop pre.data.length⟩ else s

/-- ASCII case folding: Go `strings.EqualFold` on the ASCII strings the
program compares (hexadecimal checksums). -/
def asciiFold (c : Char) : Char :=
  if 'A' ≤ c ∧ c ≤ 'Z' then Char.ofNat (c.toNat + 32) else c

/-- Go `strings.EqualFold` restricted to ASCII: equality after case folding. -/
def goEqualFold (s t : String) : Bool :=
  s.data.map asciiFold == t.data.map asciiFold

/-- Lowercase hexadecimal digit for a value below 16, as in Go's
`encoding/hex`. -/
def hexDigitChar (n : Nat) : Char :=
  if n < 10 then Char.ofNat ('0'.toNat + n) else Char.ofNat ('a'.toNat + (n - 10))

/-- The two lowercase hex digits Go's `hex.EncodeToString` emits per byte. -/
def hexEncodeByte (b : Nat) : List Char :=
  [hexDigitChar (b / 16 % 16), hexDigitChar (b % 16)]

/-- Go `hex.EncodeToString` over a byte sequence (bytes as `Nat < 256`). -/
def hexEncodeToString (bytes : List Nat) : String :=
  ⟨(bytes.map hexEncodeByte).flatten⟩

/-- Error cases of `Downloader.verifyChecksum` (src/unnamed/part_008,
lines 603-624); the `fmt.Errorf` messages are represented by constructors. -/
inductive ChecksumError
  | emptyChecksum
  | mismatch (actual expected : String)
  deriving DecidableEq, Repr

/-- `Downloader.verifyChecksum` (src/unnamed/part_008, lines 603-624).
Opening and hashing the downloaded file is abstracted into the `digest`
argument: the SHA-256 digest bytes of the file's contents. An empty
expected checksum fails immediately; otherwise the hex encoding of the
digest is compared case-insensitively against the expected string. -/
def verifyChecksum (digest : List Nat) (expected : String) : Except ChecksumError Unit :=
  if expected = "" then .error .emptyChecksum
  else
    let actual := hexEncodeToString digest
    if goEqualFold actual expected then .ok () else .error (.mismatch actual expected)

theorem hexEncodeToString_ne_empty (b : Nat) (bs : List Nat) :
    hexEncodeToString (b :: bs) ≠ "" := by
  intro h
  have : (hexEncodeToString (b :: bs)).data = ("" : String).data := by rw [h]
  simp [hexEncodeToString, hexEncodeByte] at this

/-- C2: checksum verification succeeds iff the hex-encoded SHA-256 digest of
the downloaded bytes equals the expected checksum case-insensitively; an
empty expected checksum always fails verification. The hypothesis records
that the digest is a SHA-256 output (32 bytes). -/
theorem c2_verify_checksum_iff (digest : List Nat) (expected : String)
    (h : digest.length = 32) :
    (verifyChecksum digest expected = .ok () ↔
      goEqualFold (hexEncodeToString digest) expected = true)
    ∧ verifyChecksum digest "" = .error .emptyChecksum := by
  constructor
  · by_cases he : expected = ""
    · subst he
      constructor
      · intro hok
        simp [verifyChecksum] at hok
      · intro hfold
        obtain ⟨b, bs, rfl⟩ : ∃ b bs, digest = b :: bs := by
          cases digest with
          | nil => simp at h
          | cons b bs => exact ⟨b, bs, rfl⟩
        exfalso
        have hne := hexEncodeToString_ne_empty b bs
        have : (hexEncodeToString (b :: bs)).data.map asciiFold =
            ("" : String).data.map asciiFold := by
          simpa [goEqualFold] using hfold
        simp at this
        exact hne (by cases hstr : hexEncodeToString (b :: bs) with
          | mk data => cases data with
            | nil => rfl
            | cons c cs => rw [hstr] at this; simp at this)
    · simp only [verifyChecksum, if_neg he]
      by_cases hf : goEqualFold (hexEncodeToString digest) expected = true
      · simp [hf]
      · simp only [Bool.not_eq_true] at hf
        simp [hf]
  · simp [verifyChecksum]

/-- Witness for C2 at a concrete digest and checksum. -/
theorem c2_verify_checksum_iff_witness :
    verifyChecksum (List.replicate 32 0)
      "0000000000000000000000000000000000000000000000000000000000000000" = .ok () :=
  (c2_verify_checksum_iff (List.replicate 32 0)
      "0000000000000000000000000000000000000000000000000000000000000000"
      (by decide)).1.mpr (by decide)

/-! ## Data model: `models.Version` (src/unnamed/part_002) -/

/-- The `models.Version` record. `InstalledAt` (a `time.Time`) is modelled
as a natural-number timestamp. Field names follow the Go struct. -/
structure Version where
  Number : String := ""
  FullName : String := ""
  DownloadURL : String := ""
  FileName : String := ""
  Checksum : String := ""
  OS : String := ""
  Arch : String := ""
  InstallPath : String := ""
  IsCurrent : Bool := false
  InstalledAt : Nat := 0
  deriving DecidableEq, Repr

/-! ## Catalog resolver (package `remote`, src/unnamed/part_003) -/

/-- The `versionParts` struct of package `remote`. -/
structure versionParts where
  major : Int := 0
  minor : Int := 0
  patch : Int := 0
  prerelease : String := ""
  prereleaseNum : Int := 0
  deriving DecidableEq, Repr

/-- Digits of a decimal numeral, as a natural number. -/
def digitsToNat (l : List Char) : Nat :=
  l.foldl (fun acc c => acc * 10 + (c.toNat - 48)) 0

/-- Go `strconv.Atoi`: optional sign then decimal digits; anything else is
an error (64-bit overflow is not modelled: the program only parses short
version components). -/
def goAtoi (s : String) : Except Unit Int :=
  match s.data with
  | [] => .error ()
  | '+' :: rest =>
    if rest ≠ [] ∧ rest.all Char.isDigit then .ok (digitsToNat rest) else .error ()
  | '-' :: rest =>
    if rest ≠ [] ∧ rest.all Char.isDigit then .ok (-(digitsToNat rest : Int)) else .error ()
  | l => if l.all Char.isDigit then .ok (digitsToNat l) else .error ()

/-- `parseInt` (src/unnamed/part_003, lines 470-476): `Atoi`, with `0` on
error. -/
def parseInt (value : String) : Int :=
  match goAtoi value with
  | .ok n => n
  | .error _ => 0

/-- `parseNumericPrefix` (src/unnamed/part_003, lines 478-488): split off
the leading run of decimal digits. -/
def parseNumericPrefix (input : String) : Int × String :=
  let digits := input.data.takeWhile Char.isDigit
  if digits.isEmpty then (0, input)
  else (parseInt ⟨digits⟩, ⟨input.data.dropWhile Char.isDigit⟩)

/-- `setPrerelease` (src/unnamed/part_003, lines 490-503): the suffix's
leading non-digit run is the label, the digit tail the prerelease number. -/
def setPrerelease (parts : versionParts) (suffix : String) : versionParts :=
  let label : List Char := suffix.data.takeWhile (fun c => !c.isDigit)
  let rest : List Char := suffix.data.dropWhile (fun c => !c.isDigit)
  { parts with
    prerelease := ⟨label⟩
    prereleaseNum := if rest.isEmpty then 0 else parseInt ⟨rest⟩ }

/-- `normalizeVersion` (src/unnamed/part_003, lines 442-468). -/
def normalizeVersion (v : String) : versionParts :=
  let parts := goSplitChar '.' (goTrimPrefix v "go")
  match parts with
  | [] => {}
  | [p0] => { major := parseInt p0 }
  | p0 :: p1 :: rest =>
    let pr1 := parseNumericPrefix p1
    let r2 : versionParts := { major := parseInt p0, minor := pr1.1 }
    if pr1.2 ≠ "" then setPrerelease r2 pr1.2
    else
      match rest with
      | [] => r2
      | p2 :: _ =>
        let pr2 := parseNumericPrefix p2
        let r3 := { r2 with patch := pr2.1 }
        if pr2.2 ≠ "" then setPrerelease r3 pr2.2 else r3

/-- `cmpInt` (src/unnamed/part_003, lines 414-423). -/
def cmpInt (a b : Int) : Int :=
  if a > b then 1 else if a < b then -1 else 0

/-- The `prereleaseRank` map (src/unnamed/part_003, lines 425-429); a Go
map lookup yields the zero value `0` for unknown labels. -/
def prereleaseRank (label : String) : Int :=
  if label = "" then 3
  else if label = "rc" then 2
  else if label = "beta" then 1
  else 0

/-- `comparePrerelease` (src/unnamed/part_003, lines 431-440). -/
def comparePrerelease (a b : versionParts) : Int :=
  if a.prerelease = b.prerelease then cmpInt a.prereleaseNum b.prereleaseNum
  else cmpInt (prereleaseRank a.prerelease) (prereleaseRank b.prerelease)

/-- `compareVersionStrings` (src/unnamed/part_003, lines 396-412). -/
def compareVersionStrings (a b : String) : Int :=
  let pa := normalizeVersion a
  let pb := normalizeVersion b
  if pa.major ≠ pb.major then cmpInt pa.major pb.major
  else if pa.minor ≠ pb.minor then cmpInt pa.minor pb.minor
  else if pa.patch ≠ pb.patch then cmpInt pa.patch pb.patch
  else comparePrerelease pa pb

/-- A release object of the Go download API (src/unnamed/part_003,
lines 381-394), after JSON decoding. -/
structure releaseFile where
  Filename : String := ""
  OS : String := ""
  Arch : String := ""
  Checksum : String := ""
  Kind : String := ""
  deriving DecidableEq, Repr

/-- A release record with its file entries. -/
structure release where
  Version : String := ""
  Files : List releaseFile := []
  deriving DecidableEq, Repr

/-- The `supportedArch` allow-list (src/unnamed/part_003, lines 208-212). -/
def supportedArch (arch : String) : Bool :=
  arch == "amd64" || arch == "arm64" || arch == "386"

/-- `shouldInclude` (src/unnamed/part_003, lines 348-354). -/
def shouldInclude (f : releaseFile) : Bool :=
  if f.OS ≠ "linux" ∨ f.Kind ≠ "archive" then false else supportedArch f.Arch

/-- The `downloadBasePath` constant (src/unnamed/part_003, line 205). -/
def downloadBasePath : String := "https://go.dev/dl/"

/-- The comparison closure passed to `sort.SliceStable` in `parseVersions`
(src/unnamed/part_003, lines 337-343). -/
def versionLess (a b : Version) : Bool :=
  let cmp := compareVersionStrings a.FullName b.FullName
  if cmp = 0 then decide (a.Arch < b.Arch) else decide (cmp > 0)

/-- Stable insertion of `x` into `l`: `x` goes before the first element it
is strictly `less` than, after every element it ties with. -/
def insertS {α : Type} (less : α → α → Bool) (x : α) : List α → List α
  | [] => [x]
  | y :: ys => if less x y then x :: y :: ys else y :: insertS less x ys

/-- Model of Go's `sort.SliceStable`: a stable sort by the `less`
comparison, realised as insertion sort. -/
def sortStable {α : Type} (less : α → α → Bool) (l : List α) : List α :=
  l.foldl (fun acc x => insertS less x acc) []

/-- `Client.parseVersions` (src/unnamed/part_003, lines 313-346): flatten
the filtered release files into `Version` records and sort them with
`sort.SliceStable` under `versionLess`. JSON decoding is abstracted into
the already-decoded `releases` argument. -/
def parseVersions (releases : List release) : List Version :=
  let versions : List Version :=
    (releases.map (fun rel =>
      (rel.Files.filter shouldInclude).map (fun file =>
        { Number := goTrimPrefix rel.Version "go"
          FullName := rel.Version
          DownloadURL := downloadBasePath ++ file.Filename
          FileName := file.Filename
          Checksum := file.Checksum
          OS := file.OS
          Arch := file.Arch : Version }))).flatten
  sortStable versionLess versions

theorem cmpInt_antisymm (a b : Int) : cmpInt a b = -cmpInt b a := by
  unfold cmpInt
  split_ifs <;> omega

theorem comparePrerelease_antisymm (a b : versionParts) :
    comparePrerelease a b = -comparePrerelease b a := by
  unfold comparePrerelease
  by_cases h : a.prerelease = b.prerelease
  · rw [if_pos h, if_pos h.symm, cmpInt_antisymm]
  · rw [if_neg h, if_neg (fun hh => h hh.symm), cmpInt_antisymm]

theorem compareVersionStrings_antisymm (a b : String) :
    compareVersionStrings a b = -compareVersionStrings b a := by
  unfold compareVersionStrings
  by_cases h1 : (normalizeVersion a).major = (normalizeVersion b).major
  · rw [if_neg (not_not_intro h1), if_neg (not_not_intro h1.symm)]
    by_cases h2 : (normalizeVersion a).minor = (normalizeVersion b).minor
    · rw [if_neg (not_not_intro h2), if_neg (not_not_intro h2.symm)]
      by_cases h3 : (normalizeVersion a).patch = (normalizeVersion b).patch
      · rw [if_neg (not_not_intro h3), if_neg (not_not_intro h3.symm),
          comparePrerelease_antisymm]
      · rw [if_pos h3, if_pos (fun hh => h3 hh.symm), cmpInt_antisymm]
    · rw [if_pos h2, if_pos (fun hh => h2 hh.symm), cmpInt_antisymm]
  · rw [if_pos h1, if_pos (fun hh => h1 hh.symm), cmpInt_antisymm]

theorem cmpInt_eq_or (a b : Int) :
    cmpInt a b = 1 ∨ cmpInt a b = 0 ∨ cmpInt a b = -1 := by
  unfold cmpInt
  split_ifs <;> simp

theorem comparePrerelease_eq_or (a b : versionParts) :
    comparePrerelease a b = 1 ∨ comparePrerelease a b = 0 ∨ comparePrerelease a b = -1 := by
  unfold comparePrerelease
  split_ifs <;> exact cmpInt_eq_or _ _

theorem compareVersionStrings_eq_or (a b : String) :
    compareVersionStrings a b = 1 ∨ compareVersionStrings a b = 0 ∨
      compareVersionStrings a b = -1 := by
  simp only [compareVersionStrings]
  split_ifs <;> first
    | exact cmpInt_eq_or _ _
    | exact comparePrerelease_eq_or _ _

theorem versionLess_asymm (a b : Version) (h : versionLess a b = true) :
    versionLess b a = false := by
  simp only [versionLess] at h ⊢
  have hanti := compareVersionStrings_antisymm b.FullName a.FullName
  by_cases hc : compareVersionStrings a.FullName b.FullName = 0
  · rw [if_pos hc] at h
    rw [if_pos (by omega)]
    have hlt : a.Arch < b.Arch := of_decide_eq_true h
    exact decide_eq_false (lt_asymm hlt)
  · rw [if_neg hc] at h
    have hgt : compareVersionStrings a.FullName b.FullName > 0 := of_decide_eq_true h
    rw [if_neg (by omega)]
    exact decide_eq_false (by omega)

theorem chain_insertS {α : Type} (less : α → α → Bool)
    (hasym : ∀ x y, less x y = true → less y x = false)
    (x : α) (l : List α)
    (h : List.Chain' (fun a b => less b a = false) l) :
    List.Chain' (fun a b => less b a = false) (insertS less x l) := by
  induction l with
  | nil => simp [insertS]
  | cons y ys ih =>
    simp only [insertS]
    by_cases hxy : less x y = true
    · simp only [if_pos hxy]
      exact List.Chain'.cons (hasym x y hxy) h
    · simp only [if_neg hxy]
      have hxyf : less x y = false := by simpa using hxy
      have hins := ih h.tail
      cases ys with
      | nil =>
        simp only [insertS]
        exact List.chain'_cons.mpr ⟨hxyf, List.chain'_singleton x⟩
      | cons z zs =>
        by_cases hxz : less x z = true
        · simp only [insertS, if_pos hxz] at hins ⊢
          exact List.chain'_cons.mpr ⟨hxyf, hins⟩
        · simp only [insertS, if_neg hxz] at hins ⊢
          exact List.chain'_cons.mpr ⟨(List.chain'_cons.mp h).1, hins⟩

theorem chain_sortStable_aux {α : Type} (less : α → α → Bool)
    (hasym : ∀ x y, less x y = true → less y x = false)
    (l : List α) :
    ∀ acc : List α, List.Chain' (fun a b => less b a = false) acc →
      List.Chain' (fun a b => less b a = false)
        (l.foldl (fun acc x => insertS less x acc) acc) := by
  induction l with
  | nil => intro acc h; simpa
  | cons x xs ih =>
    intro acc h
    simp only [List.foldl_cons]
    exact ih _ (chain_insertS less hasym x acc h)

theorem chain_sortStable {α : Type} (less : α → α → Bool)
    (hasym : ∀ x y, less x y = true → less y x = false)
    (l : List α) :
    List.Chain' (fun a b => less b a = false) (sortStable less l) :=
  chain_sortStable_aux less hasym l [] (by simp)

/-- C4: the list produced by `parseVersions` (and hence returned by
`FetchVersions`) is non-increasing in version precedence at every adjacent
pair, where precedence is `compareVersionStrings` (major, then minor, then
patch, then prerelease-label rank with stable > rc > beta > unrecognized,
then prerelease number) and exact ties are broken by architecture in
ascending lexical order. -/
theorem c4_parse_versions_ordered (releases : List release) :
    List.Chain' (fun a b =>
      compareVersionStrings a.FullName b.FullName = 1 ∨
        (compareVersionStrings a.FullName b.FullName = 0 ∧ a.Arch ≤ b.Arch))
      (parseVersions releases) := by
  have hasym : ∀ x y : Version, versionLess x y = true → versionLess y x = false :=
    fun x y h => versionLess_asymm x y h
  simp only [parseVersions]
  refine List.Chain'.imp ?_ (chain_sortStable versionLess hasym _)
  intro a b hba
  simp only [versionLess] at hba
  have hanti := compareVersionStrings_antisymm b.FullName a.FullName
  rcases compareVersionStrings_eq_or a.FullName b.FullName with h1 | h1 | h1
  · exact Or.inl h1
  · right
    refine ⟨h1, ?_⟩
    rw [if_pos (by omega)] at hba
    exact le_of_not_lt (of_decide_eq_false hba)
  · exfalso
    rw [if_neg (by omega)] at hba
    have := of_decide_eq_false hba
    omega

/-- Witness for C4 on the release list of Scenario A. -/
theorem c4_parse_versions_ordered_witness :
    List.Chain' (fun a b =>
      compareVersionStrings a.FullName b.FullName = 1 ∨
        (compareVersionStrings a.FullName b.FullName = 0 ∧ a.Arch ≤ b.Arch))
      (parseVersions
        [{ Version := "go1.20.1"
           Files := [{ Filename := "go1.20.1.linux-amd64.tar.gz", OS := "linux",
                       Arch := "amd64", Checksum := "amd64", Kind := "archive" },
                     { Filename := "go1.20.1.windows-amd64.zip", OS := "windows",
                       Arch := "amd64", Checksum := "win", Kind := "archive" }] },
         { Version := "go1.21rc1"
           Files := [{ Filename := "go1.21rc1.linux-arm64.tar.gz", OS := "linux",
                       Arch := "arm64", Checksum := "arm64", Kind := "archive" },
                     { Filename := "go1.21rc1.linux-386.tar.gz", OS := "linux",
                       Arch := "386", Checksum := "386", Kind := "archive" }] }]) :=
  c4_parse_versions_ordered _

/-! ## Shell detection (src/internal/env/manager.go) -/

/-- Go `filepath.Base` on a Unix path: strip trailing slashes, then take
the part after the last slash; `""` maps to `"."` and an all-slash path to
`"/"`. -/
def goBase (path : String) : String :=
  if path = "" then "."
  else
    let stripped := (path.data.reverse.dropWhile (· = '/')).reverse
    let lastElem := (stripped.reverse.takeWhile (· ≠ '/')).reverse
    if lastElem.isEmpty then "/" else ⟨lastElem⟩

/-- `Manager.DetectShell` (src/internal/env/manager.go, lines 64-76): an
empty `SHELL` value falls back to `"bash"`; the basename must be `bash` or
`zsh`, anything else is an unsupported-shell error. The `SHELL` lookup is
abstracted into the `shellEnv` argument. -/
def DetectShell (shellEnv : String) : Except String String :=
  let shellPath := if shellEnv = "" then "bash" else shellEnv
  let shell := goBase shellPath
  if shell = "bash" ∨ shell = "zsh" then .ok shell
  else .error ("env: unsupported shell " ++ shell)

/-- C10: with `SHELL` empty or unset, shell detection returns `"bash"`
rather than failing; a non-empty `SHELL` fails exactly when its basename is
neither `"bash"` nor `"zsh"`. -/
theorem c10_detect_shell_empty_defaults_bash :
    DetectShell "" = .ok "bash"
    ∧ ∀ s : String, s ≠ "" →
        ((∃ e, DetectShell s = .error e) ↔ goBase s ≠ "bash" ∧ goBase s ≠ "zsh") := by
  constructor
  · rfl
  · intro s hs
    simp only [DetectShell, if_neg hs]
    by_cases hb : goBase s = "bash" ∨ goBase s = "zsh"
    · rw [if_pos hb]
      constructor
      · rintro ⟨e, he⟩
        cases he
      · rintro ⟨h1, h2⟩
        rcases hb with hb | hb
        · exact absurd hb h1
        · exact absurd hb h2
    · rw [if_neg hb]
      push_neg at hb
      exact ⟨fun _ => hb, fun _ => ⟨_, rfl⟩⟩

/-- Witness for C10: `SHELL=/usr/bin/fish` is rejected. -/
theorem c10_detect_shell_empty_defaults_bash_witness :
    ∃ e, DetectShell "/usr/bin/fish" = .error e :=
  (c10_detect_shell_empty_defaults_bash.2 "/usr/bin/fish" (by decide)).mpr (by decide)

/-! ## Metadata store (package `storage`, src/unnamed/part_003) -/

/-- The replace-or-append loop of `FileStorage.SaveMetadata`
(src/unnamed/part_003, lines 593-603): replace the first record whose
`Number` matches, otherwise append at the end. -/
def upsertVersion : List Version → Version → List Version
  | [], v => [v]
  | x :: xs, v =>
    if x.Number = v.Number then v :: xs else x :: upsertVersion xs v

/-- Durable metadata state: `none` models a missing `metadata.json`
(`os.ErrNotExist`), `some vs` models a file holding the collection `vs`
(JSON serialization is a faithful round-trip of the record list). -/
abbrev MetadataState := Option (List Version)

/-- `FileStorage.SaveMetadata` (src/unnamed/part_003, lines 575-606): a
missing file is treated as the empty collection, then the upsert result is
written back. -/
def SaveMetadata (st : MetadataState) (v : Version) : MetadataState :=
  some (upsertVersion (st.getD []) v)

/-- `FileStorage.LoadMetadata` (src/unnamed/part_003, lines 608-618): a
missing file loads as the empty collection. -/
def LoadMetadata (st : MetadataState) : List Version :=
  st.getD []

theorem upsertVersion_numbers_of_not_mem (v : Version) :
    ∀ vs : List Version, v.Number ∉ vs.map Version.Number →
      upsertVersion vs v = vs ++ [v] := by
  intro vs
  induction vs with
  | nil => intro _; rfl
  | cons x xs ih =>
    intro h
    simp only [List.map_cons, List.mem_cons] at h
    push_neg at h
    have hne : x.Number ≠ v.Number := Ne.symm h.1
    simp only [upsertVersion, if_neg hne, ih h.2, List.cons_append]

theorem upsertVersion_map_number (v : Version) :
    ∀ vs : List Version, v.Number ∈ vs.map Version.Number →
      (upsertVersion vs v).map Version.Number = vs.map Version.Number := by
  intro vs
  induction vs with
  | nil => intro h; simp at h
  | cons x xs ih =>
    intro h
    by_cases hx : x.Number = v.Number
    · simp [upsertVersion, if_pos hx, hx]
    · simp only [List.map_cons, List.mem_cons] at h
      rcases h with h | h
      · exact absurd h.symm hx
      · simp only [upsertVersion, if_neg hx, List.map_cons]
        rw [ih h]

theorem upsertVersion_count (v : Version) :
    ∀ vs : List Version, (vs.map Version.Number).Nodup →
      (upsertVersion vs v).count v = 1 := by
  intro vs
  induction vs with
  | nil => intro _; simp [upsertVersion]
  | cons x xs ih =>
    intro hnd
    simp only [List.map_cons, List.nodup_cons] at hnd
    by_cases hx : x.Number = v.Number
    · simp only [upsertVersion, if_pos hx]
      rw [List.count_cons_self]
      have : xs.count v = 0 := by
        rw [List.count_eq_zero]
        intro hv
        exact hnd.1 (hx ▸ (List.mem_map_of_mem Version.Number hv))
      omega
    · simp only [upsertVersion, if_neg hx]
      have hvx : v ≠ x := fun hh => hx (by rw [hh])
      rw [List.count_cons_of_ne hvx]
      exact ih hnd.2

/-- C9: saving a record `m` and loading back yields a collection containing
`m` exactly once — `SaveMetadata` replaces the record with the same version
number when present and appends otherwise, keeping version numbers unique.
The hypothesis is the store invariant that version numbers are unique
(which `SaveMetadata` itself maintains). -/
theorem c9_save_load_roundtrip (st : MetadataState) (m : Version)
    (hnd : ((LoadMetadata st).map Version.Number).Nodup) :
    (LoadMetadata (SaveMetadata st m)).count m = 1
    ∧ ((LoadMetadata (SaveMetadata st m)).map Version.Number).Nodup
    ∧ (m.Number ∉ (LoadMetadata st).map Version.Number →
        LoadMetadata (SaveMetadata st m) = LoadMetadata st ++ [m]) := by
  simp only [LoadMetadata, SaveMetadata, Option.getD_some] at hnd ⊢
  refine ⟨upsertVersion_count m _ hnd, ?_, ?_⟩
  · by_cases hmem : m.Number ∈ (st.getD []).map Version.Number
    · rw [upsertVersion_map_number m _ hmem]
      exact hnd
    · rw [upsertVersion_numbers_of_not_mem m _ hmem]
      simp only [List.map_append, List.map_cons, List.map_nil]
      rw [List.nodup_append]
      refine ⟨hnd, List.nodup_singleton _, ?_⟩
      intro x hx
      simp only [List.mem_singleton]
      intro hxm
      exact hmem (hxm ▸ hx)
  · intro hmem
    exact upsertVersion_numbers_of_not_mem m _ hmem

/-- Witness for C9 on a concrete two-record store. -/
theorem c9_save_load_roundtrip_witness :
    (LoadMetadata (SaveMetadata (some [{ Number := "1.20.0" : Version }])
        { Number := "1.21.0" })).count { Number := "1.21.0" } = 1 :=
  (c9_save_load_roundtrip (some [{ Number := "1.20.0" }]) { Number := "1.21.0" }
      (by decide)).1

/-! ## Path utilities (Go `path.Clean`, `filepath.Dir`, `filepath.Join`;
on Linux `filepath` and `path` agree). -/

/-- Whether a path is rooted (starts with a slash). -/
def isRooted (p : String) : Bool := goHasPrefix p "/"

/-- The effect of a `".."` component on the accumulated output (held in
reverse, most recent first): pop the latest component unless it is itself
a kept `".."`; an unresolvable `".."` is dropped on a rooted path and kept
on a relative one. -/
def dotDotStep (rooted : Bool) : List String → List String
  | o :: os => if o = ".." then ".." :: o :: os else os
  | [] => if rooted then [] else [".."]

/-- Core of Go `path.Clean`: process components left to right, dropping
empty and `"."` components and resolving `".."` with `dotDotStep`. -/
def cleanAcc (rooted : Bool) : List String → List String → List String
  | [], out => out
  | c :: rest, out =>
    if c = "" ∨ c = "." then cleanAcc rooted rest out
    else if c = ".." then cleanAcc rooted rest (dotDotStep rooted out)
    else cleanAcc rooted rest (c :: out)

/-- The cleaned component list of a path. -/
def cleanComponents (p : String) : List String :=
  (cleanAcc (isRooted p) (goSplitChar '/' p) []).reverse

/-- Go `path.Clean` (= `filepath.Clean` on Linux). -/
def pathClean (p : String) : String :=
  if p = "" then "."
  else
    let out := cleanComponents p
    if out = [] then (if isRooted p then "/" else ".")
    else (if isRooted p then "/" else "") ++ goJoin "/" out

/-- Go `filepath.Dir`: everything up to and including the final slash,
cleaned; `"."` when there is no slash. -/
def goDir (p : String) : String :=
  let lastLen := (p.data.reverse.takeWhile (· ≠ '/')).length
  pathClean ⟨p.data.take (p.data.length - lastLen)⟩

/-- Go `filepath.Join` on two elements: empty elements are skipped, the
rest are joined with a slash and cleaned. -/
def filepathJoin (a b : String) : String :=
  if a = "" then (if b = "" then "" else pathClean b)
  else if b = "" then pathClean a
  else pathClean (a ++ "/" ++ b)

/-! ## Durable-state writes (C7): the filesystem operations performed by
the three persistence functions. -/

/-- A filesystem operation relevant to durability. -/
inductive FileOp
  | mkdirAll (path : String)
  | readFile (path : String)
  | writeFile (path : String)
  | renameFile (src dst : String)
  deriving DecidableEq, Repr

/-- Whether an operation is a rename. -/
def FileOp.isRename : FileOp → Bool
  | .renameFile _ _ => true
  | _ => false

/-- The filesystem operations of `FileStorage.writeMetadataLocked`
(src/unnamed/part_003, lines 719-731): marshal the collection (pure) and
`os.WriteFile` the metadata path directly. -/
def writeMetadataLockedOps (metadataPath : String) : List FileOp :=
  [FileOp.writeFile metadataPath]

/-- The filesystem operations of `FileStorage.SetCurrentVersionMarker`
(src/unnamed/part_003, lines 668-677): `ensureRoot` (`os.MkdirAll` on the
metadata directory) then a direct `os.WriteFile` of the marker path. -/
def setCurrentVersionMarkerOps (metadataPath currentPath : String) : List FileOp :=
  [FileOp.mkdirAll (goDir metadataPath), FileOp.writeFile currentPath]

/-- The filesystem operations of `Manager.UpdateShellConfig`
(src/internal/env/manager.go, lines 79-104): `os.MkdirAll` on the config
directory, `os.ReadFile` of the existing file, then a direct
`os.WriteFile` of the merged content. -/
def updateShellConfigOps (configPath : String) : List FileOp :=
  [FileOp.mkdirAll (goDir configPath), FileOp.readFile configPath,
   FileOp.writeFile configPath]

/-- Write-to-temporary-then-rename at a destination: some other path is
written and renamed onto the destination, and the destination is never
written directly. -/
def atomicReplaceWrite (ops : List FileOp) (dest : String) : Prop :=
  (∃ tmp, tmp ≠ dest ∧ FileOp.writeFile tmp ∈ ops ∧ FileOp.renameFile tmp dest ∈ ops)
  ∧ FileOp.writeFile dest ∉ ops

/-- Counterexample for C7: the metadata write is a direct `os.WriteFile`
of the destination, not a write-to-temporary-then-rename. -/
theorem c7_metadata_write_not_atomic_counterexample :
    ¬ atomicReplaceWrite (writeMetadataLockedOps "/root/.govm/metadata.json")
        "/root/.govm/metadata.json" := by
  rintro ⟨⟨tmp, hne, hw, _⟩, _⟩
  simp only [writeMetadataLockedOps, List.mem_singleton] at hw
  exact hne (by injection hw)

/-- C7 (amended): each of the three durable-state writes — metadata file,
active-version marker, shell configuration — writes its destination file
directly with `os.WriteFile` and performs no rename at all. -/
theorem c7_durable_writes_direct (metadataPath currentPath configPath : String) :
    (FileOp.writeFile metadataPath ∈ writeMetadataLockedOps metadataPath
      ∧ ∀ op ∈ writeMetadataLockedOps metadataPath, op.isRename = false)
    ∧ (FileOp.writeFile currentPath ∈ setCurrentVersionMarkerOps metadataPath currentPath
      ∧ ∀ op ∈ setCurrentVersionMarkerOps metadataPath currentPath, op.isRename = false)
    ∧ (FileOp.writeFile configPath ∈ updateShellConfigOps configPath
      ∧ ∀ op ∈ updateShellConfigOps configPath, op.isRename = false) := by
  refine ⟨⟨?_, ?_⟩, ⟨?_, ?_⟩, ⟨?_, ?_⟩⟩ <;>
    simp [writeMetadataLockedOps, setCurrentVersionMarkerOps, updateShellConfigOps,
      FileOp.isRename]

/-- Witness for C7's amended statement at the default storage paths. -/
theorem c7_durable_writes_direct_witness :
    FileOp.writeFile "/root/.govm/current" ∈
      setCurrentVersionMarkerOps "/root/.govm/metadata.json" "/root/.govm/current" :=
  (c7_durable_writes_direct "/root/.govm/metadata.json" "/root/.govm/current"
      "/root/.bashrc").2.1.1

/-! ## Archive extraction (`extractTarGz`, src/unnamed/part_009) -/

/-- Extraction failures (`fmt.Errorf` messages as constructors): the
path-traversal guard of `ensureWithinRoot` and the unsupported-entry-type
default of the `switch`. I/O failures of the gzip/tar readers are not
modelled (the archive argument is the already-decoded entry list). -/
inductive ExtractError
  | illegalPath (target : String)
  | unsupportedEntry (name : String)
  deriving DecidableEq, Repr

/-- The tar entry types distinguished by `extractTarGz`: `TypeDir`,
`TypeReg`, `TypeRegA`, `TypeSymlink`, and everything else. -/
inductive TarType
  | dir
  | reg
  | regA
  | symlink
  | other (flag : Nat)
  deriving DecidableEq, Repr

/-- A tar header as far as `extractTarGz` inspects it. -/
structure TarEntry where
  name : String := ""
  typeflag : TarType := .reg
  linkname : String := ""
  deriving DecidableEq, Repr

/-- A filesystem write performed during extraction. -/
inductive ExtractOp
  | mkdirAll (path : String)
  | writeFile (path : String)
  | symlink (oldname newpath : String)
  deriving DecidableEq, Repr

/-- `ensureWithinRoot` (src/unnamed/part_009, lines 287-297): both paths
are cleaned; the target must equal the root or extend it past a path
separator. -/
def ensureWithinRoot (root target : String) : Except ExtractError Unit :=
  let root' := pathClean root
  let target' := pathClean target
  if target' = root' then .ok ()
  else if goHasPrefix target' (root' ++ "/") then .ok ()
  else .error (.illegalPath target')

/-- `normalizeTarPath` (src/unnamed/part_009, lines 270-285): clean the
entry name; entries equal to `"go"`, `"."` or `""` after cleaning, and
entries not under the `go/` top-level directory, are skipped (second
component `true`); otherwise the `go/` prefix is stripped. -/
def normalizeTarPath (name : String) : String × Bool :=
  let clean0 := pathClean name
  let clean := goTrimPrefix clean0 "./"
  if clean = "go" ∨ clean = "." ∨ clean = "" then ("", true)
  else if goHasPrefix clean "go/" then
    let stripped := goTrimPrefix clean "go/"
    if stripped = "" then ("", true) else (stripped, false)
  else ("", true)

/-- The extraction loop of `extractTarGz` (src/unnamed/part_009, lines
206-268) over a decoded entry list: returns the sequence of filesystem
writes performed, and the first error if one occurs (writes made before
the error are kept, as in the sequential Go loop). -/
def extractTarGz (dest : String) : List TarEntry → List ExtractOp × Option ExtractError
  | [] => ([], none)
  | e :: rest =>
    let np := normalizeTarPath e.name
    if np.2 then extractTarGz dest rest
    else
      let target := filepathJoin dest np.1
      match ensureWithinRoot dest target with
      | .error err => ([], some err)
      | .ok _ =>
        match e.typeflag with
        | .other _ => ([], some (.unsupportedEntry e.name))
        | .dir =>
          let r := extractTarGz dest rest
          (ExtractOp.mkdirAll target :: r.1, r.2)
        | .reg =>
          let r := extractTarGz dest rest
          (ExtractOp.mkdirAll (goDir target) :: ExtractOp.writeFile target :: r.1, r.2)
        | .regA =>
          let r := extractTarGz dest rest
          (ExtractOp.mkdirAll (goDir target) :: ExtractOp.writeFile target :: r.1, r.2)
        | .symlink =>
          let r := extractTarGz dest rest
          (ExtractOp.symlink e.linkname target :: r.1, r.2)

/-! Lemmas on splitting, joining and cleaning paths, for the C1 analysis
of `normalizeTarPath` and `ensureWithinRoot`. -/

theorem splitCharAux_append (sep : Char) (l2 : List Char) :
    ∀ (l1 acc : List Char),
      splitCharAux sep (l1 ++ sep :: l2) acc =
        splitCharAux sep l1 acc ++ splitCharAux sep l2 [] := by
  intro l1
  induction l1 with
  | nil => intro acc; simp [splitCharAux]
  | cons c cs ih =>
    intro acc
    simp only [List.cons_append, splitCharAux, List.append_eq]
    by_cases hc : c = sep
    · rw [if_pos hc, if_pos hc, ih]
      simp
    · rw [if_neg hc, if_neg hc, ih]

theorem goSplitChar_append (a b : String) :
    goSplitChar '/' (a ++ "/" ++ b) = goSplitChar '/' a ++ goSplitChar '/' b := by
  simp only [goSplitChar]
  have hd : (a ++ "/" ++ b).data = a.data ++ '/' :: b.data := by
    rw [String.data_append, String.data_append]
    simp [show ("/" : String).data = ['/'] from rfl]
  rw [hd, splitCharAux_append]

theorem splitCharAux_ne_nil (sep : Char) :
    ∀ (l acc : List Char), splitCharAux sep l acc ≠ [] := by
  intro l
  induction l with
  | nil => intro acc; simp [splitCharAux]
  | cons c cs ih =>
    intro acc
    simp only [splitCharAux]
    by_cases hc : c = sep
    · rw [if_pos hc]; simp
    · rw [if_neg hc]; exact ih _

theorem goSplitChar_ne_nil (sep : Char) (s : String) : goSplitChar sep s ≠ [] :=
  splitCharAux_ne_nil sep s.data []

theorem splitCharAux_no_sep (sep : Char) :
    ∀ (l acc : List Char), sep ∉ acc →
      ∀ piece ∈ splitCharAux sep l acc, sep ∉ piece.data := by
  intro l
  induction l with
  | nil =>
    intro acc hacc piece hp
    simp only [splitCharAux, List.mem_singleton] at hp
    subst hp
    simpa using fun h => hacc (List.mem_reverse.mp h)
  | cons c cs ih =>
    intro acc hacc piece hp
    simp only [splitCharAux] at hp
    by_cases hc : c = sep
    · rw [if_pos hc] at hp
      rcases List.mem_cons.mp hp with hp | hp
      · subst hp
        simpa using fun h => hacc (List.mem_reverse.mp h)
      · exact ih [] (by simp) piece hp
    · rw [if_neg hc] at hp
      refine ih (c :: acc) ?_ piece hp
      intro h
      rcases List.mem_cons.mp h with h | h
      · exact hc h.symm
      · exact hacc h

theorem goSplitChar_no_sep (sep : Char) (s : String) :
    ∀ piece ∈ goSplitChar sep s, sep ∉ piece.data :=
  splitCharAux_no_sep sep s.data [] (by simp)

theorem splitCharAux_of_no_sep (sep : Char) :
    ∀ (l acc : List Char), sep ∉ l → splitCharAux sep l acc = [⟨acc.reverse ++ l⟩] := by
  intro l
  induction l with
  | nil => intro acc _; simp [splitCharAux]
  | cons c cs ih =>
    intro acc h
    simp only [List.mem_cons, not_or] at h
    have hcne : ¬c = sep := fun hh => h.1 hh.symm
    simp only [splitCharAux, if_neg hcne]
    rw [ih (c :: acc) h.2]
    simp

theorem goSplitChar_single (s : String) (h : '/' ∉ s.data) :
    goSplitChar '/' s = [s] := by
  simp only [goSplitChar]
  rw [splitCharAux_of_no_sep '/' s.data [] h]
  simp

theorem goSplitChar_goJoin (out : List String) (hne : out ≠ [])
    (h : ∀ c ∈ out, '/' ∉ c.data) :
    goSplitChar '/' (goJoin "/" out) = out := by
  induction out with
  | nil => exact absurd rfl hne
  | cons x xs ih =>
    cases xs with
    | nil => exact goSplitChar_single x (h x (by simp))
    | cons y ys =>
      show goSplitChar '/' (x ++ "/" ++ goJoin "/" (y :: ys)) = x :: y :: ys
      rw [goSplitChar_append, goSplitChar_single x (h x (by simp)),
        ih (by simp) (fun c hc => h c (List.mem_cons_of_mem x hc))]
      rfl

/-- A clean path component: nonempty, not `"."`, not `".."`, and without
a separator. -/
def goodComp (c : String) : Prop :=
  c ≠ "" ∧ c ≠ "." ∧ c ≠ ".." ∧ '/' ∉ c.data

instance (c : String) : Decidable (goodComp c) := by
  unfold goodComp
  infer_instance

theorem cleanAcc_all_good (rooted : Bool) :
    ∀ (l acc : List String), (∀ c ∈ l, goodComp c) →
      cleanAcc rooted l acc = l.reverse ++ acc := by
  intro l
  induction l with
  | nil => intro acc _; simp [cleanAcc]
  | cons c cs ih =>
    intro acc h
    obtain ⟨h1, h2, h3, _⟩ := h c (by simp)
    have hno : ¬(c = "" ∨ c = ".") := by
      push_neg
      exact ⟨h1, h2⟩
    simp only [cleanAcc, if_neg hno, if_neg h3]
    rw [ih (c :: acc) (fun x hx => h x (List.mem_cons_of_mem c hx))]
    simp

theorem cleanAcc_append (rooted : Bool) :
    ∀ (l1 l2 acc : List String),
      cleanAcc rooted (l1 ++ l2) acc = cleanAcc rooted l2 (cleanAcc rooted l1 acc) := by
  intro l1
  induction l1 with
  | nil => intro l2 acc; simp [cleanAcc]
  | cons c cs ih =>
    intro l2 acc
    simp only [List.cons_append, cleanAcc, List.append_eq]
    by_cases h1 : c = "" ∨ c = "."
    · rw [if_pos h1, if_pos h1, ih]
    · by_cases h2 : c = ".."
      · rw [if_neg h1, if_neg h1, if_pos h2, if_pos h2, ih]
      · rw [if_neg h1, if_neg h1, if_neg h2, if_neg h2, ih]

theorem dotDotStep_shape (rooted : Bool) (ns : List String) (k : Nat)
    (hns : ∀ c ∈ ns, goodComp c) (hk : rooted = true → k = 0) :
    ∃ ns₂ k₂, (∀ c ∈ ns₂, goodComp c) ∧ (rooted = true → k₂ = 0) ∧
      dotDotStep rooted (ns ++ List.replicate k "..") =
        ns₂ ++ List.replicate k₂ ".." := by
  cases ns with
  | nil =>
    cases k with
    | zero =>
      cases rooted with
      | true => exact ⟨[], 0, by simp, fun _ => rfl, by simp [dotDotStep]⟩
      | false => exact ⟨[], 1, by simp, by simp, by simp [dotDotStep]⟩
    | succ k' =>
      have hrooted : rooted = false := by
        cases rooted with
        | true => exact absurd (hk rfl) (Nat.succ_ne_zero k')
        | false => rfl
      subst hrooted
      refine ⟨[], k' + 2, by simp, by simp, ?_⟩
      simp [dotDotStep, List.replicate_succ]
  | cons n ns₂ =>
    have hn := hns n (by simp)
    refine ⟨ns₂, k, fun x hx => hns x (List.mem_cons_of_mem n hx), hk, ?_⟩
    simp [dotDotStep, if_neg hn.2.2.1]

theorem cleanAcc_shape (rooted : Bool) :
    ∀ (l : List String), (∀ c ∈ l, '/' ∉ c.data) →
      ∀ (ns : List String) (k : Nat), (∀ c ∈ ns, goodComp c) → (rooted = true → k = 0) →
        ∃ ns' k', (∀ c ∈ ns', goodComp c) ∧ (rooted = true → k' = 0) ∧
          cleanAcc rooted l (ns ++ List.replicate k "..") =
            ns' ++ List.replicate k' ".." := by
  intro l
  induction l with
  | nil =>
    intro _ ns k hns hk
    exact ⟨ns, k, hns, hk, rfl⟩
  | cons c cs ih =>
    intro hsep ns k hns hk
    have hcsep : '/' ∉ c.data := hsep c (by simp)
    have hcs : ∀ x ∈ cs, '/' ∉ x.data := fun x hx => hsep x (List.mem_cons_of_mem c hx)
    simp only [cleanAcc]
    by_cases h1 : c = "" ∨ c = "."
    · rw [if_pos h1]
      exact ih hcs ns k hns hk
    · by_cases h2 : c = ".."
      · rw [if_neg h1, if_pos h2]
        obtain ⟨ns₂, k₂, hg₂, hk₂, heq₂⟩ := dotDotStep_shape rooted ns k hns hk
        rw [heq₂]
        exact ih hcs ns₂ k₂ hg₂ hk₂
      · rw [if_neg h1, if_neg h2]
        push_neg at h1
        rw [show c :: (ns ++ List.replicate k "..") = (c :: ns) ++ List.replicate k ".."
          from rfl]
        exact ih hcs (c :: ns) k
          (fun x hx => by
            rcases List.mem_cons.mp hx with hx | hx
            · subst hx; exact ⟨h1.1, h1.2, h2, hcsep⟩
            · exact hns x hx)
          hk

/-- The cleaned component list of any path is a (possibly empty) run of
`".."` components followed by good components; a rooted path has no
`".."` run. -/
theorem cleanComponents_shape (p : String) :
    ∃ g k, (∀ c ∈ g, goodComp c) ∧ (isRooted p = true → k = 0) ∧
      cleanComponents p = List.replicate k ".." ++ g := by
  obtain ⟨ns', k', hg, hk, heq⟩ :=
    cleanAcc_shape (isRooted p) (goSplitChar '/' p)
      (goSplitChar_no_sep '/' p) [] 0 (by simp) (fun _ => rfl)
  refine ⟨ns'.reverse, k', fun c hc => hg c (List.mem_reverse.mp hc), hk, ?_⟩
  simp only [cleanComponents]
  rw [show ([] : List String) ++ List.replicate 0 ".." = [] from rfl] at heq
  rw [heq]
  simp

theorem stringExt (s t : String) (h : s.data = t.data) : s = t := by
  cases s
  cases t
  simp_all

theorem append_ne_empty_left (a b : String) (ha : a ≠ "") : a ++ b ≠ "" := by
  intro h
  apply ha
  have hd := congrArg String.data h
  rw [String.data_append] at hd
  simp only [List.append_eq_nil] at hd
  exact stringExt a "" (by simp [hd.1])

theorem isRooted_append (a b : String) (ha : a ≠ "") :
    isRooted (a ++ b) = isRooted a := by
  simp only [isRooted, goHasPrefix, String.data_append]
  cases hd : a.data with
  | nil => exact absurd (stringExt a "" (by simp [hd])) ha
  | cons c cs =>
    simp [show ("/" : String).data = ['/'] from rfl, List.isPrefixOf]

theorem goHasPrefix_append_self (a b : String) : goHasPrefix (a ++ b) a = true := by
  simp only [goHasPrefix, String.data_append]
  exact List.isPrefixOf_iff_prefix.mpr (List.prefix_append a.data b.data)

theorem goTrimPrefix_append (a b : String) : goTrimPrefix (a ++ b) a = b := by
  simp only [goTrimPrefix, goHasPrefix_append_self, if_pos]
  refine stringExt _ b ?_
  simp [String.data_append]

theorem goHasPrefix_decompose (s pre : String) (hpre : '/' ∉ pre.data)
    (hp : goHasPrefix s (pre ++ "/") = true) :
    ∃ t : String, s = pre ++ "/" ++ t ∧ goSplitChar '/' s = pre :: goSplitChar '/' t := by
  obtain ⟨t, ht⟩ := List.isPrefixOf_iff_prefix.mp hp
  have hs : s = pre ++ "/" ++ ⟨t⟩ := by
    refine stringExt s _ ?_
    rw [String.data_append, String.data_append, ← ht, String.data_append]
  refine ⟨⟨t⟩, hs, ?_⟩
  rw [hs, goSplitChar_append, goSplitChar_single pre hpre]
  rfl

theorem goJoin_append (l1 l2 : List String) (h1 : l1 ≠ []) (h2 : l2 ≠ []) :
    goJoin "/" (l1 ++ l2) = goJoin "/" l1 ++ "/" ++ goJoin "/" l2 := by
  induction l1 with
  | nil => exact absurd rfl h1
  | cons x xs ih =>
    cases xs with
    | nil =>
      cases l2 with
      | nil => exact absurd rfl h2
      | cons y ys => rfl
    | cons y ys =>
      have := ih (by simp)
      show x ++ "/" ++ goJoin "/" (y :: ys ++ l2) =
        x ++ "/" ++ goJoin "/" (y :: ys) ++ "/" ++ goJoin "/" l2
      rw [this]
      simp [String.append_assoc]

theorem cleanComponents_of_split (p : String) (hr : isRooted p = true)
    (comps : List String) (hsplit : goSplitChar '/' p = comps) :
    cleanComponents p = (cleanAcc true comps []).reverse := by
  simp only [cleanComponents]
  rw [hr, hsplit]

/-- Cleaning is the identity on a rendered rooted path with good
components. -/
theorem pathClean_render_rooted (comps : List String) (hne : comps ≠ [])
    (hg : ∀ c ∈ comps, goodComp c) :
    pathClean ("/" ++ goJoin "/" comps) = "/" ++ goJoin "/" comps := by
  have hsne : ("/" ++ goJoin "/" comps : String) ≠ "" :=
    append_ne_empty_left "/" _ (by decide)
  have hrs : isRooted ("/" ++ goJoin "/" comps) = true := by
    rw [isRooted_append "/" _ (by decide)]
    decide
  have hsplit : goSplitChar '/' ("/" ++ goJoin "/" comps) = "" :: comps := by
    have h0 : ("/" ++ goJoin "/" comps : String) = "" ++ "/" ++ goJoin "/" comps := rfl
    rw [h0, goSplitChar_append]
    rw [goSplitChar_goJoin comps hne (fun c hc => (hg c hc).2.2.2)]
    rfl
  have hcc : cleanComponents ("/" ++ goJoin "/" comps) = comps := by
    rw [cleanComponents_of_split _ hrs _ hsplit]
    have : cleanAcc true ("" :: comps) [] = cleanAcc true comps [] := by
      simp [cleanAcc]
    rw [this, cleanAcc_all_good true comps [] hg]
    simp
  simp only [pathClean, if_neg hsne]
  rw [hcc, if_neg hne, hrs]
  simp

/-- Any entry name that `normalizeTarPath` does not skip yields a relative
path whose components are all good (no `".."`, no empties, no dots, no
separators): the cleaned name must sit strictly below the `go/` top-level
directory, so nothing surviving normalization can climb out of it. -/
theorem normalizeTarPath_components (name rel : String)
    (h : normalizeTarPath name = (rel, false)) :
    ∀ piece ∈ goSplitChar '/' rel, goodComp piece := by
  by_cases hname : name = ""
  · subst hname
    have hval : normalizeTarPath "" = ("", true) := by decide
    rw [hval] at h
    simp at h
  obtain ⟨g, k, hg, hkroot, hcc⟩ := cleanComponents_shape name
  by_cases hccnil : cleanComponents name = []
  · by_cases hr : isRooted name = true
    · have hclean : pathClean name = "/" := by
        simp only [pathClean, if_neg hname]
        rw [if_pos hccnil, hr]
        rfl
      have hval : normalizeTarPath name = ("", true) := by
        simp only [normalizeTarPath]
        rw [hclean]
        rfl
      rw [hval] at h
      simp at h
    · have hr' : isRooted name = false := by simpa using hr
      have hclean : pathClean name = "." := by
        simp only [pathClean, if_neg hname]
        rw [if_pos hccnil, hr']
        rfl
      have hval : normalizeTarPath name = ("", true) := by
        simp only [normalizeTarPath]
        rw [hclean]
        rfl
      rw [hval] at h
      simp at h
  · have hnosep : ∀ c ∈ cleanComponents name, '/' ∉ c.data := by
      rw [hcc]
      intro c hc
      rcases List.mem_append.mp hc with hc | hc
      · rw [List.eq_of_mem_replicate hc]; decide
      · exact (hg c hc).2.2.2
    have hrender : pathClean name =
        (if isRooted name then "/" else "") ++ goJoin "/" (cleanComponents name) := by
      simp only [pathClean, if_neg hname]
      rw [if_neg hccnil]
    by_cases hr : isRooted name = true
    · -- Rooted cleaned names never carry a `go/` prefix: every branch skips.
      have hk0 : k = 0 := hkroot hr
      subst hk0
      simp only [List.replicate_zero, List.nil_append] at hcc
      have hgne : g ≠ [] := hcc ▸ hccnil
      have hclean : pathClean name = "/" ++ goJoin "/" g := by
        rw [hrender, hr, hcc]
        rfl
      have hsplit : goSplitChar '/' (pathClean name) = "" :: g := by
        rw [hclean, show ("/" ++ goJoin "/" g : String) = "" ++ "/" ++ goJoin "/" g
          from rfl, goSplitChar_append,
          goSplitChar_goJoin g hgne (fun c hcm => (hg c hcm).2.2.2)]
        rfl
      by_cases hdot : goHasPrefix (pathClean name) "./" = true
      · obtain ⟨t, _, htsplit⟩ := goHasPrefix_decompose (pathClean name) "." (by decide)
          (by rw [show ("." ++ "/" : String) = "./" from rfl]; exact hdot)
        rw [hsplit] at htsplit
        injection htsplit with h1 _
        exact absurd h1 (by decide)
      · have hdotf : goHasPrefix (pathClean name) "./" = false := by simpa using hdot
        have htrim : goTrimPrefix (pathClean name) "./" = pathClean name := by
          simp [goTrimPrefix, hdotf]
        have hgo : goHasPrefix (pathClean name) "go/" = false := by
          by_cases hgo1 : goHasPrefix (pathClean name) "go/" = true
          · obtain ⟨t, _, htsplit⟩ := goHasPrefix_decompose (pathClean name) "go" (by decide)
              (by rw [show ("go" ++ "/" : String) = "go/" from rfl]; exact hgo1)
            rw [hsplit] at htsplit
            injection htsplit with h1 _
            exact absurd h1 (by decide)
          · simpa using hgo1
        have hne1 : pathClean name ≠ "go" := by
          intro he
          rw [he, show goSplitChar '/' "go" = ["go"] from by decide] at hsplit
          injection hsplit with h1 _
          exact absurd h1 (by decide)
        have hne2 : pathClean name ≠ "." := by
          intro he
          rw [he, show goSplitChar '/' "." = ["."] from by decide] at hsplit
          injection hsplit with h1 _
          exact absurd h1 (by decide)
        have hne3 : pathClean name ≠ "" := by
          intro he
          rw [he, show goSplitChar '/' "" = [""] from by decide] at hsplit
          injection hsplit with _ h2
          exact hgne h2.symm
        have hval : normalizeTarPath name = ("", true) := by
          simp only [normalizeTarPath]
          rw [htrim, if_neg (by push_neg; exact ⟨hne1, hne2, hne3⟩),
            if_neg (by rw [hgo]; simp)]
        rw [hval] at h
        simp at h
    · have hr' : isRooted name = false := by simpa using hr
      have hclean : pathClean name = goJoin "/" (cleanComponents name) := by
        rw [hrender, hr']
        rfl
      have hsplit : goSplitChar '/' (pathClean name) = cleanComponents name := by
        rw [hclean]
        exact goSplitChar_goJoin _ hccnil hnosep
      by_cases hdot : goHasPrefix (pathClean name) "./" = true
      · obtain ⟨t, _, htsplit⟩ := goHasPrefix_decompose (pathClean name) "." (by decide)
          (by rw [show ("." ++ "/" : String) = "./" from rfl]; exact hdot)
        rw [hsplit, hcc] at htsplit
        cases k with
        | zero =>
          simp only [List.replicate_zero, List.nil_append] at htsplit
          have hmem : "." ∈ g := htsplit ▸ List.mem_cons_self "." (goSplitChar '/' t)
          exact absurd rfl (hg "." hmem).2.1
        | succ k' =>
          rw [List.replicate_succ] at htsplit
          injection htsplit with h1 _
          exact absurd h1 (by decide)
      · have hdotf : goHasPrefix (pathClean name) "./" = false := by simpa using hdot
        have htrim : goTrimPrefix (pathClean name) "./" = pathClean name := by
          simp [goTrimPrefix, hdotf]
        by_cases hcond1 : pathClean name = "go" ∨ pathClean name = "." ∨ pathClean name = ""
        · have hval : normalizeTarPath name = ("", true) := by
            simp only [normalizeTarPath]
            rw [htrim, if_pos hcond1]
          rw [hval] at h
          simp at h
        · by_cases hgo : goHasPrefix (pathClean name) "go/" = true
          · obtain ⟨t, hteq, htsplit⟩ := goHasPrefix_decompose (pathClean name) "go"
              (by decide) (by rw [show ("go" ++ "/" : String) = "go/" from rfl]; exact hgo)
            have hstripped : goTrimPrefix (pathClean name) "go/" = t := by
              rw [hteq, show ("go" ++ "/" ++ t : String) = "go/" ++ t from rfl]
              exact goTrimPrefix_append "go/" t
            have hvalbranch : normalizeTarPath name =
                (if t = "" then (("" : String), true) else (t, false)) := by
              simp only [normalizeTarPath]
              rw [htrim, if_neg hcond1, if_pos hgo, hstripped]
            by_cases ht0 : t = ""
            · rw [hvalbranch, if_pos ht0] at h
              simp at h
            · rw [hvalbranch, if_neg ht0] at h
              have hrel : rel = t := by
                injection h with h1 _
                exact h1.symm
              subst hrel
              rw [hsplit, hcc] at htsplit
              have hk0 : k = 0 := by
                cases k with
                | zero => rfl
                | succ k' =>
                  rw [List.replicate_succ] at htsplit
                  injection htsplit with h1 _
                  exact absurd h1 (by decide)
              subst hk0
              simp only [List.replicate_zero, List.nil_append] at htsplit
              intro piece hpiece
              have : piece ∈ g := htsplit ▸ List.mem_cons_of_mem "go" hpiece
              exact hg piece this
          · have hgof : goHasPrefix (pathClean name) "go/" = false := by simpa using hgo
            have hval : normalizeTarPath name = ("", true) := by
              simp only [normalizeTarPath]
              rw [htrim, if_neg hcond1, if_neg (by rw [hgof]; simp)]
            rw [hval] at h
            simp at h

/-- For a rooted, nontrivial destination, every entry that survives
`normalizeTarPath` joins to a target that passes `ensureWithinRoot`. -/
theorem ensureWithinRoot_ok_of_normalized (dest name rel : String)
    (hroot : isRooted dest = true) (hne : cleanComponents dest ≠ [])
    (h : normalizeTarPath name = (rel, false)) :
    ensureWithinRoot dest (filepathJoin dest rel) = .ok () := by
  have htgood := normalizeTarPath_components name rel h
  have hrelne : rel ≠ "" := by
    intro h0
    refine (htgood "" ?_).1 rfl
    rw [h0, show goSplitChar '/' "" = [""] from by decide]
    simp
  have htailne : goSplitChar '/' rel ≠ [] := goSplitChar_ne_nil '/' rel
  have hdne : dest ≠ "" := by
    intro hd
    rw [hd] at hroot
    exact absurd hroot (by decide)
  obtain ⟨g, k, hgood, hk, hcc⟩ := cleanComponents_shape dest
  have hk0 : k = 0 := hk hroot
  subst hk0
  simp only [List.replicate_zero, List.nil_append] at hcc
  have hgne : g ≠ [] := hcc ▸ hne
  have hjoin : filepathJoin dest rel = pathClean (dest ++ "/" ++ rel) := by
    simp [filepathJoin, hdne, hrelne]
  have hsplitInner : goSplitChar '/' (dest ++ "/" ++ rel) =
      goSplitChar '/' dest ++ goSplitChar '/' rel := goSplitChar_append dest rel
  have hrootInner : isRooted (dest ++ "/" ++ rel) = true := by
    rw [isRooted_append _ _ (append_ne_empty_left dest "/" hdne),
      isRooted_append _ _ hdne, hroot]
  have hD : cleanAcc true (goSplitChar '/' dest) [] = g.reverse := by
    have h1 : cleanComponents dest = (cleanAcc true (goSplitChar '/' dest) []).reverse := by
      simp only [cleanComponents]
      rw [hroot]
    rw [hcc] at h1
    rw [← List.reverse_reverse (cleanAcc true (goSplitChar '/' dest) []), ← h1]
  have hccInner : cleanComponents (dest ++ "/" ++ rel) = g ++ goSplitChar '/' rel := by
    rw [cleanComponents_of_split _ hrootInner _ hsplitInner, cleanAcc_append,
      hD, cleanAcc_all_good true (goSplitChar '/' rel) g.reverse htgood]
    simp
  have hinnerne : dest ++ "/" ++ rel ≠ "" :=
    append_ne_empty_left _ rel (append_ne_empty_left dest "/" hdne)
  have hgt : g ++ goSplitChar '/' rel ≠ [] := by
    simp [htailne]
  have hrender : pathClean (dest ++ "/" ++ rel) =
      "/" ++ goJoin "/" (g ++ goSplitChar '/' rel) := by
    simp only [pathClean, if_neg hinnerne]
    rw [if_neg (hccInner ▸ hgt), hccInner, hrootInner]
    rfl
  have hrootRender : pathClean dest = "/" ++ goJoin "/" g := by
    simp only [pathClean, if_neg hdne]
    rw [if_neg hne, hcc, hroot]
    rfl
  have hgoodall : ∀ c ∈ g ++ goSplitChar '/' rel, goodComp c := by
    intro c hcm
    rcases List.mem_append.mp hcm with hcm | hcm
    · exact hgood c hcm
    · exact htgood c hcm
  have hidem := pathClean_render_rooted (g ++ goSplitChar '/' rel) hgt hgoodall
  have hjoin2 : goJoin "/" (g ++ goSplitChar '/' rel) =
      goJoin "/" g ++ "/" ++ goJoin "/" (goSplitChar '/' rel) :=
    goJoin_append g (goSplitChar '/' rel) hgne htailne
  simp only [ensureWithinRoot]
  rw [hjoin, hrender, hidem, hrootRender]
  split_ifs with h1 h2
  · rfl
  · rfl
  · exfalso
    apply h2
    rw [hjoin2, show ("/" ++ (goJoin "/" g ++ "/" ++ goJoin "/" (goSplitChar '/' rel))
        : String) = ("/" ++ goJoin "/" g ++ "/") ++ goJoin "/" (goSplitChar '/' rel)
      from by simp [String.append_assoc]]
    exact goHasPrefix_append_self _ _

/-- C1 (amended): for a rooted, nontrivial extraction root, the
path-traversal guard `ensureWithinRoot` passes for every entry that
`normalizeTarPath` does not skip, so extraction never fails with the
illegal-path error: an entry whose normalized destination would resolve
outside the root loses its `go/` top-level prefix during cleaning and is
silently skipped (nothing is written for it), rather than failing the
extraction. -/
theorem c1_traversal_entries_are_skipped (dest : String)
    (hroot : isRooted dest = true) (hne : cleanComponents dest ≠ []) :
    (∀ name rel, normalizeTarPath name = (rel, false) →
        ensureWithinRoot dest (filepathJoin dest rel) = .ok ())
    ∧ ∀ entries t, (extractTarGz dest entries).2 ≠ some (.illegalPath t) := by
  have part1 : ∀ name rel, normalizeTarPath name = (rel, false) →
      ensureWithinRoot dest (filepathJoin dest rel) = .ok () :=
    fun name rel h => ensureWithinRoot_ok_of_normalized dest name rel hroot hne h
  refine ⟨part1, ?_⟩
  intro entries
  induction entries with
  | nil => intro t; simp [extractTarGz]
  | cons e rest ih =>
    intro t
    simp only [extractTarGz]
    by_cases hskip : (normalizeTarPath e.name).2 = true
    · rw [if_pos hskip]
      exact ih t
    · rw [if_neg hskip]
      have hb : (normalizeTarPath e.name).2 = false := by simpa using hskip
      have hnp : normalizeTarPath e.name = ((normalizeTarPath e.name).1, false) := by
        have hh : normalizeTarPath e.name =
            ((normalizeTarPath e.name).1, (normalizeTarPath e.name).2) := rfl
        rw [hb] at hh
        exact hh
      rw [part1 e.name (normalizeTarPath e.name).1 hnp]
      cases e.typeflag with
      | dir => simpa using ih t
      | reg => simpa using ih t
      | regA => simpa using ih t
      | symlink => simpa using ih t
      | other flag => simp

/-- Counterexample for C1: an archive holding `go/bin`, `go/bin/go` and the
escaping entry `go/../../evil`. The claim requires the whole extraction to
fail with a path-traversal error and nothing to be written; instead the
extraction succeeds (`none` error), writes the two `go/`-entries, and
silently skips the escaping entry. -/
theorem c1_extraction_counterexample :
    extractTarGz "/home/user/.govm/versions/install-1/root"
      [{ name := "go/bin", typeflag := .dir },
       { name := "go/bin/go", typeflag := .reg },
       { name := "go/../../evil", typeflag := .reg }] =
      ([ExtractOp.mkdirAll "/home/user/.govm/versions/install-1/root/bin",
        ExtractOp.mkdirAll "/home/user/.govm/versions/install-1/root/bin",
        ExtractOp.writeFile "/home/user/.govm/versions/install-1/root/bin/go"],
       none) := by
  decide

/-- Witness for C1's amended statement on a concrete root and entry. -/
theorem c1_traversal_entries_are_skipped_witness :
    ensureWithinRoot "/opt/govm/root" (filepathJoin "/opt/govm/root" "bin/go") =
      .ok () :=
  (c1_traversal_entries_are_skipped "/opt/govm/root" (by decide) (by decide)).1
    "go/bin/go" "bin/go" (by decide)

/-! ## Shell-config managed block (src/internal/env/manager.go)

File contents are represented as their list of lines: Go's
`strings.Split(content, "\n")` maps the file string to this list and the
strings.Builder's newline-joined output maps back. `strings.Trim(s, "\n")`
corresponds to dropping empty boundary lines, `strings.TrimRight(s, "\n")`
to dropping trailing empty lines, and string concatenation with `"\n\n"`
and a final `"\n"` to inserting one empty line and appending one. -/

/-- The `blockStart` sentinel (manager.go, line 15). -/
def blockStart : String := "# >>> govm initialize >>>"

/-- The `blockEnd` sentinel (manager.go, line 16). -/
def blockEnd : String := "# <<< govm initialize <<<"

/-- `Manager.buildConfigBlock` (manager.go, lines 127-140) as its list of
lines; `gopathCfg` is the manager's `cfg.GoPath`. -/
def buildConfigBlockLines (goRoot gopathCfg : String) : List String :=
  let defaultGopath := if gopathCfg = "" then "$HOME/go" else gopathCfg
  [blockStart,
   "export GOROOT=\"" ++ goRoot ++ "\"",
   "export GOPATH=\"$\x7bGOPATH:-" ++ defaultGopath ++ "\x7d\"",
   "export PATH=\"$GOROOT/bin:$PATH\"",
   blockEnd]

/-- The loop of `removeExistingBlock` (manager.go, lines 151-178):
`skipping` is the in-block flag, `started` records whether the builder has
already received a line (its length test). -/
def removeBlockLines : List String → Bool → Bool → List String
  | [], _, _ => []
  | line :: rest, skipping, started =>
    if goTrimSpace line = blockStart then removeBlockLines rest true started
    else if goTrimSpace line = blockEnd then removeBlockLines rest false started
    else if skipping then removeBlockLines rest skipping started
    else if line = "" ∧ started = false then removeBlockLines rest skipping started
    else line :: removeBlockLines rest skipping true

/-- Drop leading empty lines (`strings.Trim(_, "\n")`, left side). -/
def dropLeadingEmpty (ls : List String) : List String :=
  ls.dropWhile (· = "")

/-- Drop trailing empty lines (`strings.Trim`/`TrimRight` with `"\n"`). -/
def dropTrailingEmpty (ls : List String) : List String :=
  (ls.reverse.dropWhile (· = "")).reverse

/-- Drop empty lines at both ends (`strings.Trim(_, "\n")`). -/
def dropEmptyEnds (ls : List String) : List String :=
  dropTrailingEmpty (dropLeadingEmpty ls)

/-- `removeExistingBlock` (manager.go, lines 151-178) at line level. -/
def removeExistingBlock (content : List String) : List String :=
  dropEmptyEnds (removeBlockLines content false false)

/-- `mergeConfig` (manager.go, lines 142-149) at line level. -/
def mergeConfig (existing block : List String) : List String :=
  let cleaned := removeExistingBlock existing
  let cleaned2 := dropTrailingEmpty cleaned
  if cleaned2.all (fun l => goTrimSpace l = "") then block ++ [""]
  else cleaned2 ++ [""] ++ block ++ [""]

theorem dropWhile_idem {α : Type} (p : α → Bool) (l : List α) :
    (l.dropWhile p).dropWhile p = l.dropWhile p := by
  induction l with
  | nil => simp
  | cons c cs ih =>
    by_cases hp : p c = true
    · simp [List.dropWhile_cons, hp, ih]
    · simp [List.dropWhile_cons, hp]

theorem dropWhile_head_not {α : Type} (p : α → Bool) :
    ∀ (l : List α) (c : α) (t : List α), l.dropWhile p = c :: t → p c = false := by
  intro l
  induction l with
  | nil => intro c t h; simp at h
  | cons a as ih =>
    intro c t h
    by_cases hp : p a = true
    · rw [List.dropWhile_cons, if_pos hp] at h
      exact ih c t h
    · rw [List.dropWhile_cons, if_neg hp] at h
      injection h with h1 _
      subst h1
      simpa using hp

theorem data_head_append (a b : String) (c : Char) (t : List Char)
    (ha : a.data = c :: t) : (a ++ b).data = c :: (t ++ b.data) := by
  rw [String.data_append, ha]
  rfl

theorem goTrimSpace_data_head (c : Char) (cs : List Char) (hc : goIsSpace c = false) :
    ∃ t, (goTrimSpace ⟨c :: cs⟩).data = c :: t := by
  simp only [goTrimSpace]
  rw [List.dropWhile_cons, if_neg (by simp [hc])]
  rw [List.reverse_cons, List.dropWhile_append]
  by_cases he : (cs.reverse.dropWhile goIsSpace).isEmpty
  · rw [if_pos he]
    refine ⟨[], ?_⟩
    rw [List.dropWhile_cons, if_neg (by simp [hc])]
    simp
  · rw [if_neg he]
    exact ⟨(cs.reverse.dropWhile goIsSpace).reverse, by simp⟩

theorem goTrimSpace_ne_sentinels (s : String) (c : Char) (rest : List Char)
    (hs : s.data = c :: rest) (hc : goIsSpace c = false) (hcn : c ≠ '#') :
    goTrimSpace s ≠ blockStart ∧ goTrimSpace s ≠ blockEnd := by
  have hdata : s = ⟨c :: rest⟩ := stringExt _ _ hs
  subst hdata
  obtain ⟨t, ht⟩ := goTrimSpace_data_head c rest hc
  constructor <;> intro he <;> rw [he] at ht
  · injection ht with h1 _
    exact hcn h1.symm
  · injection ht with h1 _
    exact hcn h1.symm

theorem removeBlockLines_no_sentinel :
    ∀ (ls : List String) (sk st : Bool), ∀ l ∈ removeBlockLines ls sk st,
      goTrimSpace l ≠ blockStart ∧ goTrimSpace l ≠ blockEnd := by
  intro ls
  induction ls with
  | nil => intro sk st l hl; simp [removeBlockLines] at hl
  | cons line rest ih =>
    intro sk st l hl
    simp only [removeBlockLines] at hl
    by_cases h1 : goTrimSpace line = blockStart
    · rw [if_pos h1] at hl; exact ih _ _ l hl
    · rw [if_neg h1] at hl
      by_cases h2 : goTrimSpace line = blockEnd
      · rw [if_pos h2] at hl; exact ih _ _ l hl
      · rw [if_neg h2] at hl
        by_cases h3 : sk = true
        · rw [if_pos h3] at hl; exact ih _ _ l hl
        · rw [if_neg h3] at hl
          by_cases h4 : line = "" ∧ st = false
          · rw [if_pos h4] at hl; exact ih _ _ l hl
          · rw [if_neg h4] at hl
            rcases List.mem_cons.mp hl with hl | hl
            · subst hl; exact ⟨h1, h2⟩
            · exact ih _ _ l hl

theorem removeBlockLines_cons_start (l : List String) (sk st : Bool) :
    removeBlockLines (blockStart :: l) sk st = removeBlockLines l true st := by
  simp only [removeBlockLines]
  rw [if_pos (by decide)]

theorem removeBlockLines_cons_end (l : List String) (sk st : Bool) :
    removeBlockLines (blockEnd :: l) sk st = removeBlockLines l false st := by
  simp only [removeBlockLines]
  rw [if_neg (by decide), if_pos (by decide)]

theorem removeBlockLines_skipping :
    ∀ (mids : List String) (rest : List String) (st : Bool),
      (∀ l ∈ mids, goTrimSpace l ≠ blockStart ∧ goTrimSpace l ≠ blockEnd) →
      removeBlockLines (mids ++ rest) true st = removeBlockLines rest true st := by
  intro mids
  induction mids with
  | nil => intro rest st _; rfl
  | cons m ms ih =>
    intro rest st h
    have hm := h m (by simp)
    simp only [List.cons_append, removeBlockLines]
    rw [if_neg hm.1, if_neg hm.2, if_pos trivial]
    exact ih rest st (fun l hl => h l (List.mem_cons_of_mem m hl))

theorem buildConfigBlockLines_mids_ne (goRoot gopathCfg : String) :
    ∀ l ∈ [("export GOROOT=\"" ++ goRoot ++ "\"" : String),
           "export GOPATH=\"$\x7bGOPATH:-" ++
             (if gopathCfg = "" then "$HOME/go" else gopathCfg) ++ "\x7d\"",
           "export PATH=\"$GOROOT/bin:$PATH\""],
      goTrimSpace l ≠ blockStart ∧ goTrimSpace l ≠ blockEnd := by
  intro l hl
  simp only [List.mem_cons, List.not_mem_nil, or_false] at hl
  rcases hl with hl | hl | hl
  · subst hl
    exact goTrimSpace_ne_sentinels _ 'e' _
      (data_head_append _ "\"" 'e' _ (data_head_append "export GOROOT=\"" goRoot 'e' _ rfl))
      (by decide) (by decide)
  · subst hl
    exact goTrimSpace_ne_sentinels _ 'e' _
      (data_head_append _ "\x7d\"" 'e' _
        (data_head_append "export GOPATH=\"$\x7bGOPATH:-" _ 'e' _ rfl))
      (by decide) (by decide)
  · subst hl
    exact goTrimSpace_ne_sentinels _ 'e' _ rfl (by decide) (by decide)

theorem removeBlockLines_block (goRoot gopathCfg : String) (rest : List String)
    (st : Bool) :
    removeBlockLines (buildConfigBlockLines goRoot gopathCfg ++ rest) false st =
      removeBlockLines rest false st := by
  simp only [buildConfigBlockLines, List.cons_append, List.nil_append]
  rw [removeBlockLines_cons_start]
  rw [show ("export GOROOT=\"" ++ goRoot ++ "\"" : String) ::
      ("export GOPATH=\"$\x7bGOPATH:-" ++
        (if gopathCfg = "" then "$HOME/go" else gopathCfg) ++ "\x7d\"" : String) ::
      ("export PATH=\"$GOROOT/bin:$PATH\"" : String) :: blockEnd :: rest =
    [("export GOROOT=\"" ++ goRoot ++ "\"" : String),
     "export GOPATH=\"$\x7bGOPATH:-" ++
       (if gopathCfg = "" then "$HOME/go" else gopathCfg) ++ "\x7d\"",
     "export PATH=\"$GOROOT/bin:$PATH\""] ++ blockEnd :: rest from rfl]
  rw [removeBlockLines_skipping _ _ _ (buildConfigBlockLines_mids_ne goRoot gopathCfg)]
  rw [removeBlockLines_cons_end]

theorem removeBlockLines_keep :
    ∀ (ls rest : List String),
      (∀ l ∈ ls, goTrimSpace l ≠ blockStart ∧ goTrimSpace l ≠ blockEnd) →
      removeBlockLines (ls ++ rest) false true = ls ++ removeBlockLines rest false true := by
  intro ls
  induction ls with
  | nil => intro rest _; rfl
  | cons c cs ih =>
    intro rest h
    have hc := h c (by simp)
    simp only [List.cons_append, removeBlockLines]
    rw [if_neg hc.1, if_neg hc.2, if_neg (by simp), if_neg (by simp)]
    exact congrArg (fun x => c :: x) (ih rest (fun l hl => h l (List.mem_cons_of_mem c hl)))

theorem dropTrailingEmpty_of_dropEmptyEnds (x : List String) :
    dropTrailingEmpty (dropEmptyEnds x) = dropEmptyEnds x := by
  simp only [dropEmptyEnds, dropTrailingEmpty]
  rw [List.reverse_reverse, dropWhile_idem]

theorem dropTrailingEmpty_decomp (l : List String) :
    l = dropTrailingEmpty l ++ (l.reverse.takeWhile (· = "")).reverse := by
  have h := List.takeWhile_append_dropWhile (p := fun x : String => x = "") (l := l.reverse)
  conv_lhs => rw [← List.reverse_reverse l, ← h]
  rw [List.reverse_append]
  rfl

theorem dropEmptyEnds_head (x : List String) (c : String) (t : List String)
    (h : dropEmptyEnds x = c :: t) : c ≠ "" := by
  have hdec := dropTrailingEmpty_decomp (dropLeadingEmpty x)
  rw [show dropTrailingEmpty (dropLeadingEmpty x) = dropEmptyEnds x from rfl, h] at hdec
  have hp := dropWhile_head_not (fun s : String => s = "") x c
    (t ++ ((dropLeadingEmpty x).reverse.takeWhile (· = "")).reverse)
    (by simpa using hdec)
  simpa using hp

theorem dropEmptyEnds_reverse_dropWhile (y : List String) :
    (dropEmptyEnds y).reverse.dropWhile (· = "") = (dropEmptyEnds y).reverse := by
  simp only [dropEmptyEnds, dropTrailingEmpty]
  rw [List.reverse_reverse]
  exact dropWhile_idem _ _

theorem dropEmptyEnds_append_blanks (x : List String) (c : String) (t : List String)
    (h : dropEmptyEnds x = c :: t) :
    dropEmptyEnds (dropEmptyEnds x ++ ["", ""]) = dropEmptyEnds x := by
  have hcne : c ≠ "" := dropEmptyEnds_head x c t h
  have hlead : dropLeadingEmpty (dropEmptyEnds x ++ ["", ""]) =
      dropEmptyEnds x ++ ["", ""] := by
    rw [h]
    simp only [dropLeadingEmpty, List.cons_append, List.dropWhile_cons]
    rw [if_neg (by simp [hcne])]
  show dropTrailingEmpty (dropLeadingEmpty (dropEmptyEnds x ++ ["", ""])) = dropEmptyEnds x
  rw [hlead]
  simp only [dropTrailingEmpty, List.reverse_append]
  rw [show (["", ""] : List String).reverse = ["", ""] from rfl]
  rw [show (["", ""] : List String) ++ (dropEmptyEnds x).reverse =
    "" :: "" :: (dropEmptyEnds x).reverse from rfl]
  rw [List.dropWhile_cons, if_pos (by simp), List.dropWhile_cons, if_pos (by simp)]
  rw [dropEmptyEnds_reverse_dropWhile, List.reverse_reverse]

theorem mem_of_dropEmptyEnds {l : String} {x : List String}
    (h : l ∈ dropEmptyEnds x) : l ∈ x := by
  simp only [dropEmptyEnds, dropTrailingEmpty, dropLeadingEmpty] at h
  rw [List.mem_reverse] at h
  have h1 := (List.dropWhile_sublist (l := (x.dropWhile (· = "")).reverse)
    (p := (· = ""))).mem h
  rw [List.mem_reverse] at h1
  exact (List.dropWhile_sublist (l := x) (p := (· = ""))).mem h1

theorem mergeConfig_blank (existing b : List String)
    (h : (dropTrailingEmpty (removeExistingBlock existing)).all
      (fun l => goTrimSpace l = "") = true) :
    mergeConfig existing b = b ++ [""] := by
  simp only [mergeConfig]
  rw [if_pos h]

theorem mergeConfig_content (existing b : List String)
    (h : ¬ (dropTrailingEmpty (removeExistingBlock existing)).all
      (fun l => goTrimSpace l = "") = true) :
    mergeConfig existing b =
      dropTrailingEmpty (removeExistingBlock existing) ++ [""] ++ b ++ [""] := by
  simp only [mergeConfig]
  rw [if_neg h]

/-- C5 (amended): the merge always produces a prefix free of sentinel
lines followed by exactly one fresh managed block and a trailing blank
line, and it is idempotent; hence any number of rewrites leaves exactly
one managed block. (The original claim's "preserving all other content"
fails: see the counterexample, where content after an unterminated start
sentinel is dropped.) -/
theorem c5_managed_block_merge (existing : List String) (goRoot gopathCfg : String) :
    (∃ pre, mergeConfig existing (buildConfigBlockLines goRoot gopathCfg) =
        pre ++ buildConfigBlockLines goRoot gopathCfg ++ [""]
      ∧ ∀ l ∈ pre, goTrimSpace l ≠ blockStart ∧ goTrimSpace l ≠ blockEnd)
    ∧ mergeConfig (mergeConfig existing (buildConfigBlockLines goRoot gopathCfg))
        (buildConfigBlockLines goRoot gopathCfg) =
      mergeConfig existing (buildConfigBlockLines goRoot gopathCfg) := by
  have hCform : dropTrailingEmpty (removeExistingBlock existing) =
      removeExistingBlock existing := dropTrailingEmpty_of_dropEmptyEnds _
  by_cases hblank : (dropTrailingEmpty (removeExistingBlock existing)).all
      (fun l => goTrimSpace l = "") = true
  · have hm : mergeConfig existing (buildConfigBlockLines goRoot gopathCfg) =
        buildConfigBlockLines goRoot gopathCfg ++ [""] := mergeConfig_blank _ _ hblank
    constructor
    · refine ⟨[], ?_, by simp⟩
      rw [hm]
      simp
    · rw [hm]
      have hrb : removeBlockLines (buildConfigBlockLines goRoot gopathCfg ++ [""])
          false false = [] := by
        rw [removeBlockLines_block]
        decide
      have hre : removeExistingBlock (buildConfigBlockLines goRoot gopathCfg ++ [""]) =
          [] := by
        show dropEmptyEnds (removeBlockLines
          (buildConfigBlockLines goRoot gopathCfg ++ [""]) false false) = []
        rw [hrb]
        rfl
      apply mergeConfig_blank
      rw [hre]
      decide
  · have hm : mergeConfig existing (buildConfigBlockLines goRoot gopathCfg) =
        removeExistingBlock existing ++ [""] ++
          buildConfigBlockLines goRoot gopathCfg ++ [""] := by
      rw [mergeConfig_content _ _ hblank, hCform]
    have hCne : removeExistingBlock existing ≠ [] := by
      intro h0
      apply hblank
      rw [h0]
      decide
    obtain ⟨c, t, hct⟩ : ∃ c t, removeExistingBlock existing = c :: t := by
      cases hx : removeExistingBlock existing with
      | nil => exact absurd hx hCne
      | cons c t => exact ⟨c, t, rfl⟩
    have hcne : c ≠ "" :=
      dropEmptyEnds_head (removeBlockLines existing false false) c t hct
    have hnosent : ∀ l ∈ removeExistingBlock existing,
        goTrimSpace l ≠ blockStart ∧ goTrimSpace l ≠ blockEnd := fun l hl =>
      removeBlockLines_no_sentinel existing false false l (mem_of_dropEmptyEnds hl)
    have hdt : dropTrailingEmpty (c :: t) = c :: t := by
      rw [← hct]
      exact hCform
    constructor
    · refine ⟨removeExistingBlock existing ++ [""], ?_, ?_⟩
      · rw [hm]
      · intro l hl
        rcases List.mem_append.mp hl with hl | hl
        · exact hnosent l hl
        · rw [List.mem_singleton] at hl
          subst hl
          exact ⟨by decide, by decide⟩
    · rw [hm]
      have hshape : removeExistingBlock existing ++ [""] ++
          buildConfigBlockLines goRoot gopathCfg ++ [""] =
          (c :: t) ++ ("" :: (buildConfigBlockLines goRoot gopathCfg ++ [""])) := by
        rw [hct]
        simp
      have hrl : removeBlockLines
          ((c :: t) ++ ("" :: (buildConfigBlockLines goRoot gopathCfg ++ [""])))
          false false = (c :: t) ++ ["", ""] := by
        have hcs := hnosent c (by rw [hct]; simp)
        have ht : ∀ l ∈ t, goTrimSpace l ≠ blockStart ∧ goTrimSpace l ≠ blockEnd :=
          fun l hl => hnosent l (by rw [hct]; exact List.mem_cons_of_mem c hl)
        have h3 : removeBlockLines
            ("" :: (buildConfigBlockLines goRoot gopathCfg ++ [""])) false true =
            ["", ""] := by
          rw [show ("" :: (buildConfigBlockLines goRoot gopathCfg ++ [""])) =
            [""] ++ (buildConfigBlockLines goRoot gopathCfg ++ [""]) from rfl]
          rw [removeBlockLines_keep [""] _ (by decide), removeBlockLines_block]
          rw [show removeBlockLines [""] false true = [""] from by decide]
          rfl
        simp only [List.cons_append, removeBlockLines]
        rw [if_neg hcs.1, if_neg hcs.2, if_neg (by simp), if_neg (by simp [hcne])]
        exact congrArg (fun x => c :: x)
          ((removeBlockLines_keep t _ ht).trans (by rw [h3]))
      rw [hshape]
      have hrem : removeExistingBlock
          ((c :: t) ++ ("" :: (buildConfigBlockLines goRoot gopathCfg ++ [""]))) =
          c :: t := by
        show dropEmptyEnds (removeBlockLines
          ((c :: t) ++ ("" :: (buildConfigBlockLines goRoot gopathCfg ++ [""])))
          false false) = c :: t
        rw [hrl]
        have hblanks := dropEmptyEnds_append_blanks
          (removeBlockLines existing false false) c t hct
        rw [show dropEmptyEnds (removeBlockLines existing false false) = c :: t
          from hct] at hblanks
        exact hblanks
      have hblank2 : ¬ (dropTrailingEmpty (removeExistingBlock
          ((c :: t) ++ ("" :: (buildConfigBlockLines goRoot gopathCfg ++ [""]))))).all
          (fun l => goTrimSpace l = "") = true := by
        rw [hrem, hdt]
        rw [hCform, hct] at hblank
        exact hblank
      rw [mergeConfig_content _ _ hblank2, hrem, hdt]
      simp

/-- Counterexample for C5: content after an unterminated start sentinel is
not preserved — `"lost"` sits inside no sentinel-delimited managed block
(there is no end sentinel), yet the merge drops it. -/
theorem c5_unterminated_block_counterexample :
    "lost" ∉ mergeConfig ["keep", "# >>> govm initialize >>>", "lost"]
      (buildConfigBlockLines "/g" "")
    ∧ mergeConfig ["keep", "# >>> govm initialize >>>", "lost"]
        (buildConfigBlockLines "/g" "") =
      ["keep", ""] ++ buildConfigBlockLines "/g" "" ++ [""] := by
  constructor
  · decide
  · decide

/-- Witness for C5's amended statement: idempotence at a concrete file. -/
theorem c5_managed_block_merge_witness :
    mergeConfig (mergeConfig ["alpha"] (buildConfigBlockLines "/go/root" ""))
      (buildConfigBlockLines "/go/root" "") =
    mergeConfig ["alpha"] (buildConfigBlockLines "/go/root" "") :=
  (c5_managed_block_merge ["alpha"] "/go/root" "").2

/-! ## Uninstaller (src/internal/version/uninstaller.go) -/

/-- The durable state the uninstaller touches: the metadata collection
(a missing `metadata.json` loads as the empty list), the marker file
(`none` = absent), and the set of existing directories. -/
structure UninstallWorld where
  metadata : List Version := []
  marker : Option String := none
  dirs : List String := []
  deriving DecidableEq, Repr

/-- `FileStorage.GetCurrentVersionMarker` (src/unnamed/part_003, lines
653-665): a missing file reads as `""`, otherwise the trimmed content. -/
def GetCurrentVersionMarker (marker : Option String) : String :=
  match marker with
  | none => ""
  | some data => goTrimSpace data

/-- `FileStorage.DeleteMetadata` (src/unnamed/part_003, lines 621-641):
keep every record whose number differs. -/
def DeleteMetadata (versions : List Version) (number : String) : List Version :=
  versions.filter (fun v => v.Number ≠ number)

/-- `os.RemoveAll` on the directory set: the path and everything under it
disappear. -/
def removeAll (dirs : List String) (path : String) : List String :=
  dirs.filter (fun d => ¬(d = path ∨ goHasPrefix d (path ++ "/") = true))

/-- Errors of `Uninstaller.Uninstall` (uninstaller.go); the nil-storage
dependency check is not modelled (the store is always present here). -/
inductive UninstallError
  | emptyVersion
  | notInstalled (version : String)
  | activeProtected (version : String)
  deriving DecidableEq, Repr

/-- `Uninstaller.Uninstall` (src/internal/version/uninstaller.go, lines
24-79): trim the version, find its record, protect the active version
unless forced, remove the install directory, delete the record, clear the
marker if it matched, and return the reloaded remaining collection. The
returned world is the state after the call (unchanged on error). -/
def Uninstall (w : UninstallWorld) (version : String) (force : Bool) :
    Except UninstallError (List Version) × UninstallWorld :=
  let version := goTrimSpace version
  if version = "" then (.error .emptyVersion, w)
  else
    match w.metadata.find? (fun v => v.Number == version) with
    | none => (.error (.notInstalled version), w)
    | some target =>
      let current := GetCurrentVersionMarker w.marker
      if current = target.Number ∧ force = false then
        (.error (.activeProtected version), w)
      else
        let w1 := if target.InstallPath ≠ ""
          then { w with dirs := removeAll w.dirs target.InstallPath } else w
        let w2 := { w1 with metadata := DeleteMetadata w1.metadata target.Number }
        let w3 := if current = target.Number then { w2 with marker := some "" } else w2
        (.ok w3.metadata, w3)

/-- C8: uninstalling the active version without force fails with the
active-version-protected error and leaves the whole world untouched; the
same call with force succeeds, removes the install directory, deletes the
record, clears the marker, and returns the remaining collection, which
excludes the version. -/
theorem c8_uninstall_active_protection (w : UninstallWorld) (n : String)
    (target : Version)
    (hn : goTrimSpace n ≠ "")
    (hfind : w.metadata.find? (fun v => v.Number == goTrimSpace n) = some target)
    (hpath : target.InstallPath ≠ "")
    (hmark : GetCurrentVersionMarker w.marker = target.Number) :
    Uninstall w n false = (.error (.activeProtected (goTrimSpace n)), w)
    ∧ Uninstall w n true =
        (.ok (DeleteMetadata w.metadata target.Number),
         { metadata := DeleteMetadata w.metadata target.Number
           marker := some ""
           dirs := removeAll w.dirs target.InstallPath })
    ∧ (∀ v' ∈ DeleteMetadata w.metadata target.Number, v'.Number ≠ goTrimSpace n)
    ∧ target.InstallPath ∉ removeAll w.dirs target.InstallPath
    ∧ GetCurrentVersionMarker (some "") = "" := by
  have htn : target.Number = goTrimSpace n := by
    have := List.find?_some hfind
    simpa using this
  refine ⟨?_, ?_, ?_, ?_, rfl⟩
  · simp only [Uninstall]
    rw [if_neg hn]
    split
    · next heq =>
      rw [hfind] at heq
      cases heq
    · next t heq =>
      rw [hfind] at heq
      injection heq with heq'
      subst heq'
      rw [if_pos ⟨hmark, trivial⟩]
  · simp only [Uninstall]
    rw [if_neg hn]
    split
    · next heq =>
      rw [hfind] at heq
      cases heq
    · next t heq =>
      rw [hfind] at heq
      injection heq with heq'
      subst heq'
      rw [if_neg (by rintro ⟨_, hf⟩; cases hf)]
      rw [if_pos hpath, if_pos hmark]
  · intro v' hv'
    rw [← htn]
    have := List.of_mem_filter hv'
    simpa using this
  · intro hmem
    have := List.of_mem_filter hmem
    simp at this

/-- Witness for C8 on a concrete installed-and-active world. -/
theorem c8_uninstall_active_protection_witness :
    Uninstall
      { metadata := [{ Number := "1.20.0", InstallPath := "/v/go1.20.0" }],
        marker := some "1.20.0", dirs := ["/v/go1.20.0"] } "1.20.0" false =
      (.error (.activeProtected "1.20.0"),
       { metadata := [{ Number := "1.20.0", InstallPath := "/v/go1.20.0" }],
         marker := some "1.20.0", dirs := ["/v/go1.20.0"] }) :=
  (c8_uninstall_active_protection
      { metadata := [{ Number := "1.20.0", InstallPath := "/v/go1.20.0" }],
        marker := some "1.20.0", dirs := ["/v/go1.20.0"] } "1.20.0"
      { Number := "1.20.0", InstallPath := "/v/go1.20.0" }
      (by decide) (by decide) (by decide) (by decide)).1

/-! ## Switcher (src/unnamed/part_009 `UseVersion`) and environment
manager (src/internal/env/manager.go) -/

/-- The state touched by a version switch: metadata, marker, the
filesystem (regular files and directories), the `SHELL` value, the user's
home directory (`os.UserHomeDir`, assumed to succeed), the shell config
files by path (as line lists), and the manager's `cfg.GoPath`. -/
structure SwitchWorld where
  metadata : List Version := []
  marker : Option String := none
  files : List String := []
  dirs : List String := []
  shellEnv : String := ""
  home : String := "/home/user"
  shellConfig : List (String × List String) := []
  gopathCfg : String := ""
  deriving DecidableEq, Repr

/-- `fileExists` (manager.go, lines 180-185): `os.Stat` succeeds for a
regular file (binaries in `files`, text files in `shellConfig`) or a
directory. -/
def fileExists (w : SwitchWorld) (path : String) : Bool :=
  w.files.contains path || w.dirs.contains path ||
    (w.shellConfig.lookup path).isSome

/-- `Manager.configFileForShell` (manager.go, lines 106-125). -/
def configFileForShell (w : SwitchWorld) (shellType : String) : Except String String :=
  if shellType = "bash" then
    let path := filepathJoin w.home ".bashrc"
    if fileExists w path then .ok path
    else .ok (filepathJoin w.home ".bash_profile")
  else if shellType = "zsh" then .ok (filepathJoin w.home ".zshrc")
  else .error ("env: unsupported shell " ++ shellType)

/-- Replace-or-add a config file's lines by path. -/
def upsertFile (files : List (String × List String)) (path : String)
    (content : List String) : List (String × List String) :=
  match files with
  | [] => [(path, content)]
  | (p, c) :: rest =>
    if p = path then (path, content) :: rest else (p, c) :: upsertFile rest path content

/-- `Manager.UpdateShellConfig` (manager.go, lines 79-104): resolve the
config path, ensure its directory, read the existing content (a missing
file reads as the empty string, whose line list is `[""]`), merge, and
write back. -/
def UpdateShellConfig (w : SwitchWorld) (shellType goRoot : String) :
    Except String SwitchWorld :=
  if goRoot = "" then .error "env: goRoot is required"
  else
    match configFileForShell w shellType with
    | .error e => .error e
    | .ok configPath =>
      let existing := (w.shellConfig.lookup configPath).getD [""]
      let merged := mergeConfig existing (buildConfigBlockLines goRoot w.gopathCfg)
      .ok { w with
        dirs := if w.dirs.contains (goDir configPath) then w.dirs
                else goDir configPath :: w.dirs
        shellConfig := upsertFile w.shellConfig configPath merged }

/-- `Manager.ConfigureEnvironment` (manager.go, lines 55-61). -/
def ConfigureEnvironment (w : SwitchWorld) (goRoot : String) :
    Except String SwitchWorld :=
  match DetectShell w.shellEnv with
  | .error e => .error e
  | .ok shell => UpdateShellConfig w shell goRoot

/-- `Manager.SetCurrentVersion` (manager.go, lines 47-52) followed by
`SetCurrentVersionMarker` (src/unnamed/part_003, lines 668-677): the
marker file receives the trimmed version. -/
def SetCurrentVersion (w : SwitchWorld) (version : String) : SwitchWorld :=
  { w with marker := some (goTrimSpace version) }

/-- `Switcher.ensureExecutable` (src/unnamed/part_009, lines 77-87):
`<goRoot>/bin/go` must exist and not be a directory. -/
def ensureExecutable (w : SwitchWorld) (goRoot : String) : Except String Unit :=
  let goBin := if goRoot = "" then pathClean "bin/go"
               else pathClean (goRoot ++ "/" ++ "bin" ++ "/" ++ "go")
  if w.files.contains goBin then .ok ()
  else if w.dirs.contains goBin then
    .error ("switcher: go binary path is directory: " ++ goBin)
  else .error "switcher: go binary missing"

/-- `Switcher.UseVersion` (src/unnamed/part_009, lines 26-75): trim and
validate the version, find its record, check the executable, rewrite the
shell config, persist the marker, then save every record with its active
flag set from the comparison with the target number. -/
def UseVersion (w : SwitchWorld) (version : String) :
    Except String Unit × SwitchWorld :=
  let version := goTrimSpace version
  if version = "" then (.error "switcher: version is required", w)
  else
    match w.metadata.find? (fun v => v.Number == version) with
    | none => (.error ("switcher: version " ++ version ++ " not installed"), w)
    | some target =>
      if target.InstallPath = "" then
        (.error ("switcher: version " ++ version ++ " missing install path"), w)
      else
        match ensureExecutable w target.InstallPath with
        | .error e => (.error e, w)
        | .ok _ =>
          match ConfigureEnvironment w target.InstallPath with
          | .error e => (.error e, w)
          | .ok w1 =>
            let w2 := SetCurrentVersion w1 target.Number
            let newMeta := w.metadata.foldl
              (fun acc ver =>
                upsertVersion acc { ver with IsCurrent := ver.Number == target.Number })
              w.metadata
            (.ok (), { w2 with metadata := newMeta })

theorem reverse_dropWhile_decomp {α : Type} (p : α → Bool) (l : List α) :
    l = (l.reverse.dropWhile p).reverse ++ (l.reverse.takeWhile p).reverse := by
  have h := List.takeWhile_append_dropWhile (p := p) (l := l.reverse)
  conv_lhs => rw [← List.reverse_reverse l, ← h]
  rw [List.reverse_append]

theorem goTrimSpace_idem (s : String) :
    goTrimSpace (goTrimSpace s) = goTrimSpace s := by
  simp only [goTrimSpace]
  show (⟨((((s.data.dropWhile goIsSpace).reverse.dropWhile goIsSpace).reverse.dropWhile
      goIsSpace).reverse.dropWhile goIsSpace).reverse⟩ : String) =
    ⟨((s.data.dropWhile goIsSpace).reverse.dropWhile goIsSpace).reverse⟩
  have h1 : ((s.data.dropWhile goIsSpace).reverse.dropWhile goIsSpace).reverse.dropWhile
      goIsSpace =
      ((s.data.dropWhile goIsSpace).reverse.dropWhile goIsSpace).reverse := by
    cases hdr : ((s.data.dropWhile goIsSpace).reverse.dropWhile goIsSpace).reverse with
    | nil => simp
    | cons c t =>
      rw [List.dropWhile_cons, if_neg ?hc]
      case hc =>
        have hdec := reverse_dropWhile_decomp goIsSpace (s.data.dropWhile goIsSpace)
        rw [hdr] at hdec
        have hhead := dropWhile_head_not goIsSpace s.data c
          (t ++ ((s.data.dropWhile goIsSpace).reverse.takeWhile goIsSpace).reverse)
          hdec
        simp [hhead]
  rw [h1, List.reverse_reverse, dropWhile_idem]

theorem upsertVersion_append_right (u : Version) :
    ∀ (l1 l2 : List Version), (∀ x ∈ l1, x.Number ≠ u.Number) →
      upsertVersion (l1 ++ l2) u = l1 ++ upsertVersion l2 u := by
  intro l1
  induction l1 with
  | nil => intro l2 _; rfl
  | cons x xs ih =>
    intro l2 h
    have hx := h x (by simp)
    simp only [List.cons_append, upsertVersion]
    rw [if_neg hx]
    exact congrArg (fun l => x :: l) (ih l2 (fun y hy => h y (List.mem_cons_of_mem x hy)))

theorem foldl_upsert_flag (t : String) :
    ∀ (suf pre : List Version),
      ((pre ++ suf).map Version.Number).Nodup →
      suf.foldl (fun acc ver =>
          upsertVersion acc { ver with IsCurrent := ver.Number == t })
        (pre.map (fun v => { v with IsCurrent := v.Number == t }) ++ suf) =
      (pre ++ suf).map (fun v => { v with IsCurrent := v.Number == t }) := by
  intro suf
  induction suf with
  | nil => intro pre h; simp
  | cons v suf' ih =>
    intro pre hnd
    simp only [List.foldl_cons]
    have hnotin : ∀ x ∈ pre.map (fun v => { v with IsCurrent := v.Number == t }),
        x.Number ≠ ({ v with IsCurrent := v.Number == t } : Version).Number := by
      intro x hx
      obtain ⟨y, hy, rfl⟩ := List.mem_map.mp hx
      show y.Number ≠ v.Number
      simp only [List.map_append, List.map_cons] at hnd
      rw [List.nodup_append] at hnd
      intro he
      exact hnd.2.2 (List.mem_map_of_mem Version.Number hy)
        (by rw [he]; exact List.mem_cons_self _ _)
    have hupsert : upsertVersion
        (pre.map (fun v => { v with IsCurrent := v.Number == t }) ++ v :: suf')
        { v with IsCurrent := v.Number == t } =
        pre.map (fun v => { v with IsCurrent := v.Number == t }) ++
          ({ v with IsCurrent := v.Number == t } :: suf') := by
      rw [upsertVersion_append_right _ _ _ hnotin]
      simp only [upsertVersion]
      rw [if_pos trivial]
    rw [hupsert]
    have hre : pre.map (fun v => { v with IsCurrent := v.Number == t }) ++
        ({ v with IsCurrent := v.Number == t } :: suf') =
        (pre ++ [v]).map (fun v => { v with IsCurrent := v.Number == t }) ++ suf' := by
      simp
    rw [hre]
    have := ih (pre ++ [v]) (by simpa using hnd)
    simpa using this

theorem filter_number_length_one (t : String) :
    ∀ (vs : List Version), (vs.map Version.Number).Nodup →
      (∃ y ∈ vs, y.Number = t) →
      (vs.filter (fun y => y.Number == t)).length = 1 := by
  intro vs
  induction vs with
  | nil => rintro _ ⟨y, hy, _⟩; simp at hy
  | cons x xs ih =>
    rintro hnd ⟨y, hy, hyt⟩
    simp only [List.map_cons, List.nodup_cons] at hnd
    by_cases hx : x.Number = t
    · rw [List.filter_cons_of_pos (by simp [hx])]
      have hnone : xs.filter (fun y => y.Number == t) = [] := by
        refine List.filter_eq_nil_iff.mpr ?_
        intro a ha
        simp only [beq_iff_eq, Bool.not_eq_true]
        intro he
        exact hnd.1 ((hx.trans he.symm) ▸ List.mem_map_of_mem Version.Number ha)
      simp [hnone]
    · rw [List.filter_cons_of_neg (by simp [hx])]
      refine ih hnd.2 ?_
      rcases List.mem_cons.mp hy with hy | hy
      · subst hy; exact absurd hyt hx
      · exact ⟨y, hy, hyt⟩

/-- C6: after every successful `UseVersion`, the persisted marker reads
back as the (trimmed) requested number and, among all stored records,
exactly one has the active flag set — the one whose number matches. The
hypothesis is the store invariant of unique version numbers, which the
upsert maintains. -/
theorem c6_use_version_exactly_one_active (w : SwitchWorld) (n : String)
    (w' : SwitchWorld)
    (hnd : (w.metadata.map Version.Number).Nodup)
    (h : UseVersion w n = (.ok (), w')) :
    GetCurrentVersionMarker w'.marker = goTrimSpace n
    ∧ (w'.metadata.filter (fun v => v.IsCurrent)).length = 1
    ∧ ∀ v ∈ w'.metadata, v.IsCurrent = (v.Number == goTrimSpace n) := by
  simp only [UseVersion] at h
  by_cases hv : goTrimSpace n = ""
  · rw [if_pos hv] at h
    simp at h
  rw [if_neg hv] at h
  split at h
  · simp at h
  · next target heq =>
    have htn : target.Number = goTrimSpace n := by
      simpa using List.find?_some heq
    split at h
    · simp at h
    · next hip =>
      split at h
      · simp at h
      · split at h
        · simp at h
        · next w1 heq3 =>
          rw [Prod.mk.injEq] at h
          have hw' := h.2.symm
          have hmarker : w'.marker = some (goTrimSpace target.Number) := by
            rw [hw']
            rfl
          have hmeta : w'.metadata = w.metadata.map
              (fun v => { v with IsCurrent := v.Number == target.Number }) := by
            rw [hw']
            have := foldl_upsert_flag target.Number w.metadata [] (by simpa using hnd)
            simpa using this
          refine ⟨?_, ?_, ?_⟩
          · rw [hmarker, htn]
            rw [show ∀ x : String, GetCurrentVersionMarker (some x) = goTrimSpace x
              from fun x => rfl]
            rw [goTrimSpace_idem, goTrimSpace_idem]
          · rw [hmeta]
            have hfm : (w.metadata.map
                (fun v => { v with IsCurrent := v.Number == target.Number })).filter
                (fun v => v.IsCurrent) =
                (w.metadata.filter (fun y => y.Number == target.Number)).map
                (fun v => { v with IsCurrent := v.Number == target.Number }) := by
              rw [List.filter_map]
              rfl
            rw [hfm, List.length_map]
            exact filter_number_length_one target.Number w.metadata hnd
              ⟨target, List.mem_of_find?_eq_some heq, rfl⟩
          · intro v hvmem
            rw [hmeta] at hvmem
            obtain ⟨y, hy, rfl⟩ := List.mem_map.mp hvmem
            show (y.Number == target.Number) = (y.Number == goTrimSpace n)
            rw [htn]

/-- Witness for C6 on a concrete two-version world. -/
theorem c6_use_version_exactly_one_active_witness :
    GetCurrentVersionMarker
      (UseVersion
        { metadata := [{ Number := "1.20.0", InstallPath := "/v/go1.20.0",
                         IsCurrent := true },
                       { Number := "1.21.0", InstallPath := "/v/go1.21.0" }],
          marker := some "1.20.0",
          files := ["/v/go1.21.0/bin/go", "/v/go1.20.0/bin/go"],
          dirs := ["/v/go1.21.0", "/v/go1.20.0"],
          shellEnv := "/bin/bash",
          home := "/root",
          shellConfig := [("/root/.bashrc", ["alias x=y"])] } "1.21.0").2.marker =
      "1.21.0" :=
  (c6_use_version_exactly_one_active
      { metadata := [{ Number := "1.20.0", InstallPath := "/v/go1.20.0",
                       IsCurrent := true },
                     { Number := "1.21.0", InstallPath := "/v/go1.21.0" }],
        marker := some "1.20.0",
        files := ["/v/go1.21.0/bin/go", "/v/go1.20.0/bin/go"],
        dirs := ["/v/go1.21.0", "/v/go1.20.0"],
        shellEnv := "/bin/bash",
        home := "/root",
        shellConfig := [("/root/.bashrc", ["alias x=y"])] } "1.21.0" _
      (by decide) rfl).1

/-! ## Installer (src/unnamed/part_009 `Install`) -/

/-- The state the installer touches: metadata, existing directories and
files, symlinks, the downloader's outcome (`Download` abstracted to the
decoded archive entries or the error it returns), the storage's versions
directory, and the clock (`time.Now`, as a numeric timestamp). -/
structure InstallWorld where
  metadata : List Version := []
  dirs : List String := []
  files : List String := []
  links : List (String × String) := []
  archive : Except String (List TarEntry) := .error "downloader: request failed"
  versionsDir : String := ""
  now : Nat := 0
  deriving Repr

/-- `FileStorage.GetInstallPath` (src/unnamed/part_003, lines 644-650):
`<versionsDir>/go<version>`, with the `os.TempDir()` fallback when the
versions directory is unset. -/
def GetInstallPath (versionsDir version : String) : String :=
  let dir := if versionsDir = "" then "/tmp/govm/versions" else versionsDir
  filepathJoin dir ("go" ++ version)

/-- `os.MkdirAll`: create the path and every ancestor. -/
def mkdirAllDirs (dirs : List String) (p : String) : List String :=
  let comps := cleanComponents p
  let made := (List.range comps.length).map (fun i =>
    (if isRooted p then "/" else "") ++ goJoin "/" (comps.take (i + 1)))
  made.foldl (fun acc d => if acc.contains d then acc else acc ++ [d]) dirs

/-- `Installer.isVersionInstalled` (src/unnamed/part_009, lines 184-204):
the first record with the requested number must have a non-empty install
path that `os.Stat` resolves to an existing directory. -/
def isVersionInstalled (w : InstallWorld) (number : String) : Bool :=
  match w.metadata.find? (fun v => v.Number == number) with
  | none => false
  | some v => if v.InstallPath = "" then false else w.dirs.contains v.InstallPath

/-- Apply the filesystem writes of an extraction. -/
def applyExtractOps (w : InstallWorld) (ops : List ExtractOp) : InstallWorld :=
  ops.foldl (fun acc op =>
    match op with
    | .mkdirAll p => { acc with dirs := mkdirAllDirs acc.dirs p }
    | .writeFile p =>
      { acc with files := if acc.files.contains p then acc.files else acc.files ++ [p] }
    | .symlink old newp => { acc with links := acc.links ++ [(newp, old)] }) w

/-- `os.RemoveAll` over the whole world. -/
def removeAllWorld (w : InstallWorld) (p : String) : InstallWorld :=
  { w with
    dirs := removeAll w.dirs p
    files := removeAll w.files p
    links := w.links.filter (fun l => ¬(l.1 = p ∨ goHasPrefix l.1 (p ++ "/") = true)) }

/-- Rewrite a path under `src` to sit under `dst` (for `os.Rename`). -/
def renamePath (src dst p : String) : String :=
  if p = src then dst
  else if goHasPrefix p (src ++ "/") then dst ++ ⟨p.data.drop src.data.length⟩
  else p

/-- `os.Rename` of a directory tree. -/
def renameTree (w : InstallWorld) (src dst : String) : InstallWorld :=
  { w with
    dirs := w.dirs.map (renamePath src dst)
    files := w.files.map (renamePath src dst)
    links := w.links.map (fun l => (renamePath src dst l.1, l.2)) }

/-- Render an extraction error as the installer's `fmt.Errorf` string. -/
def renderExtractError : ExtractError → String
  | .illegalPath target => "installer: illegal path " ++ target
  | .unsupportedEntry name => "installer: unsupported tar entry " ++ name

/-- `Installer.Install` (src/unnamed/part_009, lines 128-182). The third
component counts downloader invocations (network requests). The temporary
directory created by `os.MkdirTemp` is modelled with the fixed name
`install-tmp`; the deferred `os.RemoveAll(tempDir)` runs on both the error
and the success paths. -/
def Install (w : InstallWorld) (version : Version) :
    Except String Unit × InstallWorld × Nat :=
  if isVersionInstalled w version.Number then (.ok (), w, 0)
  else
    let installPath := GetInstallPath w.versionsDir version.Number
    let w1 := { w with dirs := mkdirAllDirs w.dirs (goDir installPath) }
    match w.archive with
    | .error e => (.error e, w1, 1)
    | .ok entries =>
      let tempDir := filepathJoin (goDir installPath) "install-tmp"
      let w2 := { w1 with dirs := mkdirAllDirs w1.dirs tempDir }
      let destDir := filepathJoin tempDir "root"
      let w3 := { w2 with dirs := mkdirAllDirs w2.dirs destDir }
      let r := extractTarGz destDir entries
      let w4 := applyExtractOps w3 r.1
      match r.2 with
      | some e => (.error (renderExtractError e), removeAllWorld w4 tempDir, 1)
      | none =>
        let w5 := removeAllWorld w4 installPath
        let w6 := renameTree w5 destDir installPath
        let w7 := removeAllWorld w6 tempDir
        let version' := { version with InstallPath := installPath, InstalledAt := w.now }
        (.ok (), { w7 with metadata := upsertVersion w7.metadata version' }, 1)

/-- C3: when the requested version's metadata record exists with a
non-empty install path that is an existing directory, `Install` returns
success immediately, performs zero network requests (zero downloader
invocations), and leaves the whole world — metadata record and install
directory included — unchanged. -/
theorem c3_install_idempotent_no_network (w : InstallWorld) (version : Version)
    (rec : Version)
    (hfind : w.metadata.find? (fun v => v.Number == version.Number) = some rec)
    (hpath : rec.InstallPath ≠ "")
    (hdir : w.dirs.contains rec.InstallPath = true) :
    Install w version = (.ok (), w, 0) := by
  have hinst : isVersionInstalled w version.Number = true := by
    simp only [isVersionInstalled]
    split
    · next heq =>
      rw [hfind] at heq
      cases heq
    · next v heq =>
      rw [hfind] at heq
      injection heq with heq'
      subst heq'
      rw [if_neg hpath]
      exact hdir
  unfold Install
  rw [if_pos hinst]

/-- Witness for C3 on a concrete installed world. -/
theorem c3_install_idempotent_no_network_witness :
    Install
      { metadata := [{ Number := "1.22.0", InstallPath := "/r/versions/go1.22.0" }],
        dirs := ["/r/versions", "/r/versions/go1.22.0"],
        versionsDir := "/r/versions" }
      { Number := "1.22.0", FullName := "go1.22.0" } =
      (.ok (),
       { metadata := [{ Number := "1.22.0", InstallPath := "/r/versions/go1.22.0" }],
         dirs := ["/r/versions", "/r/versions/go1.22.0"],
         versionsDir := "/r/versions" }, 0) :=
  c3_install_idempotent_no_network
    { metadata := [{ Number := "1.22.0", InstallPath := "/r/versions/go1.22.0" }],
      dirs := ["/r/versions", "/r/versions/go1.22.0"],
      versionsDir := "/r/versions" }
    { Number := "1.22.0", FullName := "go1.22.0" }
    { Number := "1.22.0", InstallPath := "/r/versions/go1.22.0" }
    (by decide) (by decide) (by decide)
